import Mathlib

/-
Verification of the axis-tagged array abstraction and image pyramid of
vigranumpy (src/vigranumpy/lib/arraytypes.py).

Conventions of the embedding:
* Array extents and strides are natural numbers; strides are measured in
  element units (itemsize = 1 element), so the source comparison
  `self.itemsize == self.strides[-1]` becomes `strides.getLastD 0 = 1`.
* `AxisInfo` / `AxisTags` live in the C++ extension module vigranumpycore,
  which is not part of the repository sources; the operations used by
  arraytypes.py (construct N unknown axes, delete at an index, transpose by
  a permutation, transform under an index expression) are modelled from the
  spec, as noted on each definition.
* Python lists are Lean lists; python integer division `int((k+1)/2)` on
  non-negative ints is Nat division.
-/

/-- Modelled from the spec: the semantic kind of one axis (spatial x/y/z,
channel, time, frequency, angle, unknown), the payload of the AxisInfo
values provided by vigranumpycore.  The claims under study only compare
tags for identity, so the optional resolution field is not needed. -/
inductive AxisInfo where
  | x | y | z | c | t | fq | ang | unknown
  deriving DecidableEq, Repr

/-- A tagged array as far as the tag bookkeeping of arraytypes.py is
concerned: the shape (one extent per dimension) and the axistags list.
Element contents do not participate in any tag-update rule. -/
structure VArr where
  shape : List Nat
  tags : List AxisInfo
  deriving DecidableEq, Repr

/-- The number of dimensions of the array (`self.ndim`). -/
def VArr.ndim (a : VArr) : Nat := a.shape.length

/-- The axis-tag length invariant of the spec:
`len(result.axistags) == result.dimensionality`. -/
def tagOK (a : VArr) : Prop := a.tags.length = a.ndim

instance (a : VArr) : Decidable (tagOK a) := by
  unfold tagOK VArr.ndim; infer_instance

/-- Modelled from the spec: `AxisTags(n)` of vigranumpycore constructs
"N unknown axes" for arrays with no semantic information. -/
def unknownTags (n : Nat) : List AxisInfo := List.replicate n .unknown

/-- Axis reduction with an `axis` argument (sum/mean/min/max/prod/all/any/...
in arraytypes.py all share this shape/tag rule): numpy removes the reduced
dimension, and the override then executes `del res.axistags[axis]`. -/
def VArr.reduceAxis (a : VArr) (axis : Nat) : VArr :=
  ⟨a.shape.eraseIdx axis, a.tags.eraseIdx axis⟩

/-- `_VigraArray.sum(axis)` for a non-None axis (arraytypes.py line 616). -/
def VArr.sumAxis (a : VArr) (axis : Nat) : VArr := a.reduceAxis axis

/-- `_VigraArray.mean(axis)` for a non-None axis (arraytypes.py line 542). -/
def VArr.meanAxis (a : VArr) (axis : Nat) : VArr := a.reduceAxis axis

/-- `_VigraArray.min(axis)` for a non-None axis (arraytypes.py line 549). -/
def VArr.minAxis (a : VArr) (axis : Nat) : VArr := a.reduceAxis axis

/-- `_VigraArray.max(axis)` for a non-None axis (arraytypes.py line 535). -/
def VArr.maxAxis (a : VArr) (axis : Nat) : VArr := a.reduceAxis axis

/-- `_VigraArray.transpose(axes)` with an explicit axis permutation:
numpy permutes the shape, and `res.axistags.transpose(axes)` applies the
same permutation to the tags (AxisTags.transpose is modelled from the
spec: "transpose by permutation"). -/
def VArr.transposePerm (a : VArr) (axes : List Nat) : VArr :=
  ⟨axes.map (fun k => a.shape.getD k 0),
   axes.map (fun k => a.tags.getD k .unknown)⟩

/-- `_VigraArray.transpose()` without arguments: numpy reverses the axes and
`res.axistags.transpose()` reverses the tag order. -/
def VArr.transposeRev (a : VArr) : VArr :=
  ⟨a.shape.reverse, a.tags.reverse⟩

/-- `_VigraArray.swapaxes(i, j)` (arraytypes.py line 623): numpy swaps the
two dimensions and the override swaps the two tags. -/
def VArr.swapaxesOp (a : VArr) (i j : Nat) : VArr :=
  ⟨(a.shape.set i (a.shape.getD j 0)).set j (a.shape.getD i 0),
   (a.tags.set i (a.tags.getD j .unknown)).set j (a.tags.getD i .unknown)⟩

/-- `_VigraArray.reshape(shape)` (arraytypes.py line 588): the result gets
`AxisTags(res.ndim)`, i.e. all-unknown tags of the new rank. -/
def VArr.reshapeOp (_a : VArr) (newShape : List Nat) : VArr :=
  ⟨newShape, unknownTags newShape.length⟩

/-- `_VigraArray.ravel()` (arraytypes.py line 577): a 1-dimensional result
with `AxisTags(1)`. -/
def VArr.ravelOp (a : VArr) : VArr :=
  ⟨[a.shape.prod], unknownTags 1⟩

/-- `_VigraArray.flatten()` (arraytypes.py line 530): a 1-dimensional result
with `AxisTags(1)`. -/
def VArr.flattenOp (a : VArr) : VArr :=
  ⟨[a.shape.prod], unknownTags 1⟩

/-- `_VigraArray.squeeze()` (arraytypes.py line 598): numpy removes all
extent-1 dimensions; the override deletes `res.axistags[k]` for every k
with `self.shape[k] == 1`, iterating k from ndim-1 down to 0.  Processing
positions from the end is exactly a right fold over the (extent, tag)
pairs. -/
def VArr.squeezeOp (a : VArr) : VArr :=
  ⟨a.shape.filter (· ≠ 1),
   (a.shape.zip a.tags).foldr
     (fun p acc => if p.1 = 1 then acc else p.2 :: acc) []⟩

/-- `_VigraArray.repeat(repeats, axis)` (arraytypes.py line 582):
axis=None flattens to one dimension and assigns `AxisTags(res.ndim)`;
with an axis, numpy keeps the rank and the tags are inherited unchanged
through `__array_finalize__`. -/
def VArr.repeatOp (a : VArr) (repeats : Nat) (axis : Option Nat) : VArr :=
  match axis with
  | none => ⟨[a.shape.prod * repeats], unknownTags 1⟩
  | some k => ⟨a.shape.set k (a.shape.getD k 0 * repeats), a.tags⟩

/-- Index argument of `_VigraArray.take`: either a scalar index or a flat
sequence of indices. -/
inductive TakeIdx where
  | scalar (i : Int)
  | seq (l : List Int)
  deriving DecidableEq, Repr

/-- `_VigraArray.take(indices, axis)` (arraytypes.py line 631).
Shape semantics of `numpy.ndarray.take`: the axis (or the flattened
array when axis is None) is replaced by the shape of `indices`; a scalar
index contributes no dimension.  The override assigns `AxisTags(res.ndim)`
only when axis is None; otherwise the tags are inherited unchanged through
`__array_finalize__`.  `take(scalar)` with axis=None yields a scalar
value carrying no tags, returned here as `none`. -/
def VArr.takeOp (a : VArr) (indices : TakeIdx) (axis : Option Nat) :
    Option VArr :=
  match axis, indices with
  | none, .scalar _ => none
  | none, .seq l => some ⟨[l.length], unknownTags 1⟩
  | some k, .seq l => some ⟨a.shape.set k l.length, a.tags⟩
  | some k, .scalar _ => some ⟨a.shape.eraseIdx k, a.tags⟩

/-- One item of a basic (view-producing) index expression: an integer
index, a slice (recorded with the extent it produces), or a newaxis
insertion. -/
inductive BasicItem where
  | intIdx (i : Int)
  | sliceIdx (m : Nat)
  | newaxisIdx
  deriving DecidableEq, Repr

/-- An index expression for `__getitem__`: a basic expression (the result
is a view sharing the buffer, `res.base is self`), or a fancy selection
that forces a copy, recorded with the shape numpy gives the copy. -/
inductive Index where
  | basic (items : List BasicItem)
  | fancyIdx (resShape : List Nat)
  deriving DecidableEq, Repr

/-- Shape of a basic-indexing view: slices keep a dimension, integer
indices consume one, newaxis inserts an extent-1 dimension, unindexed
trailing dimensions survive unchanged. -/
def viewShape : List Nat → List BasicItem → List Nat
  | shape, [] => shape
  | shape, .newaxisIdx :: rest => 1 :: viewShape shape rest
  | [], .intIdx _ :: rest => viewShape [] rest
  | [], .sliceIdx _ :: rest => viewShape [] rest
  | _ :: ss, .intIdx _ :: rest => viewShape ss rest
  | _ :: ss, .sliceIdx m :: rest => m :: viewShape ss rest

/-- Modelled from the spec: `AxisTags.transform(index, ndim)` of
vigranumpycore, as described by the docstring of `__getitem__`
(arraytypes.py lines 690-693) and spec section 4.2: a view keeps each
surviving axis's tag, axes from newaxis get an unknown tag, and axes
consumed by integer indices are dropped. -/
def tagTransform : List AxisInfo → List BasicItem → List AxisInfo
  | tags, [] => tags
  | tags, .newaxisIdx :: rest => .unknown :: tagTransform tags rest
  | [], .intIdx _ :: rest => tagTransform [] rest
  | [], .sliceIdx _ :: rest => tagTransform [] rest
  | _ :: ts, .intIdx _ :: rest => tagTransform ts rest
  | tg :: ts, .sliceIdx _ :: rest => tg :: tagTransform ts rest

/-- Provenance of each result axis of a basic index expression, expressed
over a list of source-axis names: `some j` means the result axis survives
from source axis j, `none` means it was newly created by newaxis. -/
def provenance : List Nat → List BasicItem → List (Option Nat)
  | axes, [] => axes.map some
  | axes, .newaxisIdx :: rest => none :: provenance axes rest
  | [], .intIdx _ :: rest => provenance [] rest
  | [], .sliceIdx _ :: rest => provenance [] rest
  | _ :: as, .intIdx _ :: rest => provenance as rest
  | ax :: as, .sliceIdx _ :: rest => some ax :: provenance as rest

/-- `_VigraArray.__getitem__` (arraytypes.py lines 684-701): when the
result is a view of self (`res.base is self`), the tags are
`res.axistags.transform(index, res.ndim)`; when the indexing forces a
copy, the tags become `AxisTags(res.ndim)` (all unknown). -/
def VArr.getitemOp (a : VArr) (idx : Index) : VArr :=
  match idx with
  | .basic items => ⟨viewShape a.shape items, tagTransform a.tags items⟩
  | .fancyIdx rs => ⟨rs, unknownTags rs.length⟩

/-- The four memory-order tokens of the source: 'C', 'F', 'V', 'A'. -/
inductive MOrder where
  | C | F | V | A
  deriving DecidableEq, Repr

/-- Channel-count inference of `constructNumpyArray` (arraytypes.py lines
212-217): when the requested number of channels is 0, it is 1 if the shape
has exactly `spatialDimensions` entries and the trailing extent otherwise. -/
def inferChannels (shape : List Nat) (spatialDims channels : Nat) : Nat :=
  if channels = 0 then
    if shape.length = spatialDims then 1 else shape.getLastD 0
  else channels

/-- Shape actually allocated by `constructNumpyArray` (arraytypes.py lines
219-226): with one channel no explicit channel dimension appears; otherwise
the shape is truncated/padded to `spatialDimensions + 1` entries and the
last entry is set to the channel count.  `shape.append(0)` followed by
`shape[:shapeSize]` is `(shape ++ [0]).take shapeSize`. -/
def allocShape (shape : List Nat) (spatialDims channels : Nat) : List Nat :=
  let ch := inferChannels shape spatialDims channels
  let shapeSize := if ch = 1 then spatialDims else spatialDims + 1
  let pshape := (shape ++ [0]).take shapeSize
  if spatialDims < shapeSize then pshape.dropLast ++ [ch] else pshape

/-- The allocated shape for a fresh array of the given spatial shape and
channel count (the well-formed case of `allocShape`, used by the layout
theorems): the channel extent is appended only when it exceeds one. -/
def pshapeOf (sshape : List Nat) (ch : Nat) : List Nat :=
  if ch = 1 then sshape else sshape ++ [ch]

/-- Order-"A" stride-ordering resolution of `constructNumpyArray`
(arraytypes.py lines 229-245): without an input array the order token
becomes "V"; with one, the input's stride ordering is truncated (shifting
the ranks down when the dropped trailing axis had rank 0) or extended
(shifting all ranks up and giving the new channel axis rank 0) to match
the target rank.  Natural subtraction in the shift-down branch is
faithful: under the guard the dropped rank is 0, so no surviving rank
is 0. -/
def adjustA (strideOrdering : Option (List Nat)) (shapeSize : Nat)
    (order : MOrder) : MOrder × Option (List Nat) :=
  match order, strideOrdering with
  | .A, none => (.V, none)
  | .A, some so =>
    if shapeSize < so.length then
      let pstride := so.take shapeSize
      if so.getD shapeSize 0 = 0 then (.A, some (pstride.map (· - 1)))
      else (.A, some pstride)
    else if so.length < shapeSize then
      (.A, some (so.map (· + 1) ++ [0]))
    else (.A, some so)
  | o, so => (o, so)

/-- Canonical stride orderings built by `constructNumpyArray` for the
explicit order tokens (arraytypes.py lines 249-255): "C" is
`range(n-1, -1, -1)`, "F" (and "V" with one channel) is `range(n)`, and
"V" is `range(1, n+1)` with the last entry set to 0. -/
def strideOrderingOf (order : MOrder) (channels n : Nat) : List Nat :=
  match order with
  | .C => (List.range n).reverse
  | .F => List.range n
  | .V => if channels = 1 then List.range n
          else (List.range (n - 1)).map (· + 1) ++ [0]
  | .A => List.range n

/-- Fortran-order strides (in element units) of a freshly allocated numpy
array of the given shape: stride 0 is one element, stride k is the
running product of the preceding extents. -/
def Fstrides (shape : List Nat) : List Nat :=
  shape.dropLast.scanl (· * ·) 1

/-- C-order strides (in element units) of the given shape. -/
def Cstrides (shape : List Nat) : List Nat :=
  (Fstrides shape.reverse).reverse

/-- The scatter loop `ppshape[strideOrdering[k]] = pshape[k]`
(arraytypes.py lines 257-259) for a permutation `so`: entry j of the
result is the pshape entry whose rank is j. -/
def scatterAssign (so pshape : List Nat) : List Nat :=
  (List.range pshape.length).map (fun j => pshape.getD (so.findIdx (· = j)) 0)

/-- Strides of the array returned by `constructNumpyArray` for a fresh
allocation (arraytypes.py lines 257-262): the buffer is allocated in
Fortran order with the permuted shape `ppshape`, then transposed by the
stride ordering, so stride k of the result is the Fortran stride at
position `strideOrdering[k]`. -/
def constructStrides (sshape : List Nat) (channels : Nat) (order : MOrder) :
    List Nat :=
  let pshape := pshapeOf sshape channels
  let so := strideOrderingOf order channels pshape.length
  let ppshape := scatterAssign so pshape
  so.map (fun r => (Fstrides ppshape).getD r 0)

/-- `_VigraArray.bands` (arraytypes.py lines 356-360): 1 when the shape has
exactly `spatialDimensions` entries, else the trailing extent.  The
`channels` classproperty returns this on instances. -/
def bandsOf (shape : List Nat) (spatialDims : Nat) : Nat :=
  if shape.length = spatialDims then 1 else shape.getLastD 0

/-- C-contiguity flag of the host array library (strict-strides era): an
array with a zero extent is contiguous by definition; otherwise the
strides must equal the canonical C strides. -/
def cContigB (shape strides : List Nat) : Bool :=
  shape.contains 0 || strides == Cstrides shape

/-- Fortran-contiguity flag, analogous to `cContigB`. -/
def fContigB (shape strides : List Nat) : Bool :=
  shape.contains 0 || strides == Fstrides shape

/-- The fold
`reduce(lambda x, y: y if y >= x and x >= 0 else -1, strides[:-1], 0)`
of the 'V' test in `_VigraArray.order` (arraytypes.py line 329): scans the
leading strides and returns -1 unless they are non-decreasing. -/
def vMonotone (strides : List Nat) : Int :=
  strides.dropLast.foldl
    (fun (x : Int) (y : Nat) =>
      if (y : Int) ≥ x ∧ x ≥ 0 then (y : Int) else -1) 0

/-- `_VigraArray.order` (arraytypes.py lines 322-331): 'C' when
C-contiguous, else 'F' when Fortran-contiguous, else 'V' when there is
more than one channel, the trailing stride is one element and the leading
strides are non-decreasing, else 'A'. -/
def arrayOrder (spatialDims : Nat) (shape strides : List Nat) : MOrder :=
  if cContigB shape strides then .C
  else if fContigB shape strides then .F
  else if 1 < bandsOf shape spatialDims ∧ strides.getLastD 0 = 1 ∧
          0 ≤ vMonotone strides then .V
  else .A

/-- One halving step of `ImagePyramid.createLevel` (arraytypes.py line
1240): `int((k + 1) / 2)` applied to one extent. -/
def halveDim (k : Nat) : Nat := (k + 1) / 2

/-- One doubling step of `ImagePyramid.createLevel` (arraytypes.py line
1246): `2*k - 1` applied to one extent (Nat subtraction; the python code
would fail on a zero extent, which the positivity hypotheses of the
theorems below exclude). -/
def doubleDim (k : Nat) : Nat := 2 * k - 1

/-- The level shapes of an ImagePyramid: entry i is the shape of the image
at level `lowest + i`.  `createLevel` and the constructor only ever touch
shapes and zero-fill fresh levels, so this is a faithful model of both for
every shape-law claim. -/
structure PyrShapes where
  levels : List (List Nat)
  lowest : Int
  deriving DecidableEq, Repr

/-- The pyramid's highest level, `lowest + len(levels) - 1`. -/
def PyrShapes.highest (p : PyrShapes) : Int :=
  p.lowest + p.levels.length - 1

/-- The upward loop of `ImagePyramid.createLevel` (arraytypes.py lines
1237-1242): each iteration re-reads the current last level and appends an
image whose every extent is halved (rounding up). -/
def growUpShapes : List (List Nat) → Nat → List (List Nat)
  | ss, 0 => ss
  | ss, n + 1 =>
    growUpShapes (ss ++ [(ss.getLastD []).map halveDim]) n

/-- `ImagePyramid.createLevel(level)` (arraytypes.py lines 1233-1248).
The downward branch fetches `list.__getitem__(self, 0)` once, before its
loop, so every inserted level has the same shape, the doubling of the
original first level. -/
def PyrShapes.createLevel (p : PyrShapes) (level : Int) : PyrShapes :=
  if p.highest < level then
    { levels := growUpShapes p.levels (level - p.highest).toNat,
      lowest := p.lowest }
  else if level < p.lowest then
    { levels := List.replicate (p.lowest - level).toNat
        ((p.levels.getD 0 []).map doubleDim) ++ p.levels,
      lowest := level }
  else p

/-- The body of `ImagePyramid.__init__` after its guard (arraytypes.py
lines 1101-1105): a single-level pyramid holding a copy of the image at
`copyImagedestLevel`, then `createLevel(lowestLevel)` and
`createLevel(highestLevel)`. -/
def pyramidInitBody (imageShape : List Nat)
    (copyImagedestLevel lowestLevel highestLevel : Int) : PyrShapes :=
  (((⟨[imageShape], copyImagedestLevel⟩ : PyrShapes).createLevel
      lowestLevel).createLevel highestLevel)

/-- `ImagePyramid.__init__` (arraytypes.py lines 1091-1105): raises a
ValueError when `copyImagedestLevel` lies outside
`[lowestLevel, highestLevel]`, before any level is created. -/
def pyramidInit (imageShape : List Nat)
    (copyImagedestLevel lowestLevel highestLevel : Int) :
    Except String PyrShapes :=
  if lowestLevel > copyImagedestLevel ∨ highestLevel < copyImagedestLevel
  then .error "ValueError: copyImagedestLevel must be between lowestLevel and highestLevel inclusive"
  else .ok (pyramidInitBody imageShape copyImagedestLevel lowestLevel
    highestLevel)

/-- Adjacent-level halving law: every level shape is the rounded-up half,
along every axis, of the shape one level below it. -/
def adjHalf (ss : List (List Nat)) : Prop :=
  ∀ i < ss.length - 1, ss.getD (i + 1) [] = (ss.getD i []).map halveDim

instance (ss : List (List Nat)) : Decidable (adjHalf ss) :=
  Nat.decidableBallLT _ _

/-- All extents of every level are positive (numpy rejects the negative
extents the python doubling would produce from 0, so this is the domain on
which the pyramid is meaningful). -/
def posShapes (ss : List (List Nat)) : Prop :=
  ∀ s ∈ ss, ∀ d ∈ s, 1 ≤ d

/-- A two-dimensional image as its rows of integer samples (the pyramid
methods of arraytypes.py are written for 2-D single-channel arrays; the
exact scalar type is irrelevant to the level bookkeeping under study, so
samples are integers). -/
abbrev Img := List (List Int)

/-- Pointwise image subtraction `a - b` (elementwise numpy subtraction of
same-shaped images). -/
def imSub (a b : Img) : Img :=
  List.zipWith (fun ra rb => List.zipWith (· - ·) ra rb) a b

/-- The row lengths of an image; two images with the same row lengths have
the same shape. -/
def rowLens (a : Img) : List Nat := a.map List.length

/-- Every second element of a list, starting at index 0 (`[::2]`). -/
def everySecond : List α → List α
  | [] => []
  | [x] => [x]
  | x :: _ :: rest => x :: everySecond rest

/-- The subsampling `i[::2, ::2]` of the reduce loops. -/
def subsample2 (a : Img) : Img := (everySecond a).map everySecond

/-- A zero image of the same shape as the given one
(`image.__class__(image.shape, dtype=...)` with default zero fill). -/
def zeroLike (a : Img) : Img := a.map (fun r => List.replicate r.length 0)

/-- An ImagePyramid with level contents: entry i of `levels` is the image
at level `lowest + i`. -/
structure PyrImgs where
  levels : List Img
  lowest : Int
  deriving DecidableEq, Repr

/-- The pyramid's highest level, `lowest + len(levels) - 1`. -/
def PyrImgs.highest (p : PyrImgs) : Int :=
  p.lowest + p.levels.length - 1

/-- `ImagePyramid.__getitem__(level)`: the image stored at a level. -/
def PyrImgs.get (p : PyrImgs) (level : Int) : Img :=
  p.levels.getD (level - p.lowest).toNat []

/-- `ImagePyramid.__setitem__(level, image)`: the data of `image` is copied
into the (same-shaped) image at `level`. -/
def PyrImgs.set (p : PyrImgs) (level : Int) (a : Img) : PyrImgs :=
  { p with levels := p.levels.set (level - p.lowest).toNat a }

/-- The shape of an image, `[rows, columns]`, as `createLevel` reads it. -/
def imShape (a : Img) : List Nat := [a.length, (a.getD 0 []).length]

/-- A zero image of the given `[rows, columns]` shape. -/
def zeroOfShape (s : List Nat) : Img :=
  List.replicate (s.getD 0 0) (List.replicate (s.getD 1 0) 0)

/-- The upward loop of `ImagePyramid.createLevel` on level contents:
append zero images of the repeatedly halved shape. -/
def growUpImgs : List Img → Nat → List Img
  | ls, 0 => ls
  | ls, n + 1 =>
    growUpImgs (ls ++ [zeroOfShape ((imShape (ls.getLastD [])).map halveDim)]) n

/-- `ImagePyramid.createLevel` on level contents (arraytypes.py lines
1233-1248), with the same once-fetched first image in the downward
branch as `PyrShapes.createLevel`. -/
def PyrImgs.createLevel (p : PyrImgs) (level : Int) : PyrImgs :=
  if p.highest < level then
    { levels := growUpImgs p.levels (level - p.highest).toNat,
      lowest := p.lowest }
  else if level < p.lowest then
    { levels := List.replicate (p.lowest - level).toNat
        (zeroOfShape ((imShape (p.levels.getD 0 [])).map doubleDim)) ++
        p.levels,
      lowest := level }
  else p

/-- The loop of `ImagePyramid.reduce` (arraytypes.py lines 1164-1166):
for k from srcLevel to destLevel-1, convolve level k with the Burt kernel
(the external collaborator `conv`) and store every second sample in level
k+1. -/
def reduceLoop (conv : Img → Img) : PyrImgs → Int → Nat → PyrImgs
  | p, _, 0 => p
  | p, k, n + 1 =>
    reduceLoop conv (p.set (k + 1) (subsample2 (conv (p.get k)))) (k + 1) n

/-- `ImagePyramid.reduce(srcLevel, destLevel)` (arraytypes.py lines
1147-1166), with the pyramid state returned alongside the raised error, if
any: the two guard checks run before any level is created or written. -/
def PyrImgs.reduceRun (conv : Img → Img) (p : PyrImgs)
    (srcLevel destLevel : Int) : PyrImgs × Option String :=
  if destLevel < srcLevel then
    (p, some "RuntimeError: srcLevel <= destLevel required.")
  else if srcLevel < p.lowest ∨ p.highest < srcLevel then
    (p, some "RuntimeError: srcLevel does not exist.")
  else
    (reduceLoop conv (p.createLevel destLevel) srcLevel
      (destLevel - srcLevel).toNat, none)

/-- The loop of `ImagePyramid.reduceLaplacian` (arraytypes.py lines
1203-1207): for k from srcLevel to destLevel-1, smooth level k with the
external kernel `conv`, subsample into level k+1, expand level k+1 back
to the fine resolution with `expandI` (the in-place `expandImpl`, whose
second argument supplies the destination buffer it overwrites), and store
the difference `i - self[k]` in level k. -/
def reduceLapLoop (conv : Img → Img) (expandI : Img → Img → Img) :
    PyrImgs → Int → Nat → PyrImgs
  | p, _, 0 => p
  | p, k, n + 1 =>
    let i := conv (p.get k)
    let p1 := p.set (k + 1) (subsample2 i)
    let iE := expandI (p1.get (k + 1)) i
    let p2 := p1.set k (imSub iE (p1.get k))
    reduceLapLoop conv expandI p2 (k + 1) n

/-- `ImagePyramid.reduceLaplacian(srcLevel, destLevel)` (arraytypes.py
lines 1185-1207): guards, `createLevel(destLevel)`, then the loop. -/
def PyrImgs.reduceLaplacian (conv : Img → Img) (expandI : Img → Img → Img)
    (p : PyrImgs) (srcLevel destLevel : Int) : PyrImgs × Option String :=
  if destLevel < srcLevel then
    (p, some "RuntimeError: srcLevel <= destLevel required.")
  else if srcLevel < p.lowest ∨ p.highest < srcLevel then
    (p, some "RuntimeError: srcLevel does not exist.")
  else
    (reduceLapLoop conv expandI (p.createLevel destLevel) srcLevel
      (destLevel - srcLevel).toNat, none)

/-- The loop of `ImagePyramid.expandLaplacian` (arraytypes.py lines
1228-1231): for k from srcLevel down to destLevel+1, allocate a zero image
shaped like level k-1, overwrite it with the expansion of level k
(`expandImpl`), and store `i - self[k-1]` in level k-1. -/
def expandLapLoop (expandI : Img → Img → Img) :
    PyrImgs → Int → Nat → PyrImgs
  | p, _, 0 => p
  | p, k, n + 1 =>
    let i := expandI (p.get k) (zeroLike (p.get (k - 1)))
    let p1 := p.set (k - 1) (imSub i (p.get (k - 1)))
    expandLapLoop expandI p1 (k - 1) n

/-- `ImagePyramid.expandLaplacian(srcLevel, destLevel)` (arraytypes.py
lines 1209-1231): guards, `createLevel(destLevel)`, then the loop. -/
def PyrImgs.expandLaplacian (expandI : Img → Img → Img)
    (p : PyrImgs) (srcLevel destLevel : Int) : PyrImgs × Option String :=
  if srcLevel < destLevel then
    (p, some "RuntimeError: srcLevel >= destLevel required.")
  else if srcLevel < p.lowest ∨ p.highest < srcLevel then
    (p, some "RuntimeError: srcLevel does not exist.")
  else
    (expandLapLoop expandI (p.createLevel destLevel) srcLevel
      (srcLevel - destLevel).toNat, none)

/-- The cascade of smoothed-and-subsampled images produced along the
reduce loops: step m+1 is the subsampled convolution of step m. -/
def lapCascade (conv : Img → Img) (i0 : Img) : Nat → Img
  | 0 => i0
  | m + 1 => subsample2 (conv (lapCascade conv i0 m))

/-- C9: a 3-channel array of spatial shape 4x3 constructed with the
ChannelMajor ('V') order token has element-unit strides (3, 12, 1) =
(channels, width*channels, 1); in particular the channel axis has the
smallest stride and is the innermost, fastest-varying axis. -/
theorem c9_channelmajor_strides :
    constructStrides [4, 3] 3 .V = [3, 12, 1] := by decide

/-- C10: constructing an ImagePyramid with a copy-destination level outside
the closed interval [lowestLevel, highestLevel] reports a ValueError before
any level is created, for every image shape and every such triple of level
arguments. -/
theorem c10_pyramid_range_error (imageShape : List Nat)
    (copyLevel low high : Int)
    (h : copyLevel < low ∨ high < copyLevel) :
    pyramidInit imageShape copyLevel low high =
      .error "ValueError: copyImagedestLevel must be between lowestLevel and highestLevel inclusive" := by
  unfold pyramidInit
  rw [if_pos]
  omega

/-- C10 witness: the guard fires for an 8x8 image copied to level 2 of a
pyramid spanning levels 0..1. -/
theorem c10_pyramid_range_error_witness :
    pyramidInit [8, 8] 2 0 1 =
      .error "ValueError: copyImagedestLevel must be between lowestLevel and highestLevel inclusive" :=
  c10_pyramid_range_error [8, 8] 2 0 1 (by omega)

/-- C8: calling reduce with srcLevel greater than destLevel reports the
RuntimeError of the source and returns with the pyramid — every level's
content and the level range — unmodified, for every pyramid and every
convolution collaborator. -/
theorem c8_reduce_order_error (conv : Img → Img) (p : PyrImgs)
    (srcLevel destLevel : Int) (h : destLevel < srcLevel) :
    p.reduceRun conv srcLevel destLevel =
      (p, some "RuntimeError: srcLevel <= destLevel required.") := by
  unfold PyrImgs.reduceRun
  rw [if_pos h]

/-- C8 witness: reduce(2, 1) on a two-level pyramid fails and leaves the
levels and range untouched. -/
theorem c8_reduce_order_error_witness :
    PyrImgs.reduceRun id ⟨[[[1, 2], [3, 4]], [[9]]], 0⟩ 2 1 =
      (⟨[[[1, 2], [3, 4]], [[9]]], 0⟩,
       some "RuntimeError: srcLevel <= destLevel required.") :=
  c8_reduce_order_error id ⟨[[[1, 2], [3, 4]], [[9]]], 0⟩ 2 1 (by omega)

/-- C4 counterexample: the claim says that whenever the shape does not have
exactly one more dimension than spatialDimensions, the inferred channel
count is 1; but for the 4-dimensional shape [4,3,5,2] with
spatialDimensions = 2 the code infers the trailing extent 2. -/
theorem c4_inference_counterexample :
    inferChannels [4, 3, 5, 2] 2 0 ≠ 1 := by decide

/-- C4 amended: when the requested channel count is 0, the code checks the
shape's rank against spatialDimensions itself: with exactly
spatialDimensions entries the inferred channel count is 1 and the
allocated shape is the given shape, with no explicit channel axis; with
any other rank (one more, or otherwise) the inferred channel count is the
trailing extent of the shape. -/
theorem c4_channel_inference_amended (shape : List Nat) (sd : Nat) :
    (shape.length = sd →
      inferChannels shape sd 0 = 1 ∧ allocShape shape sd 0 = shape) ∧
    (shape.length ≠ sd →
      inferChannels shape sd 0 = shape.getLastD 0) := by
  constructor
  · intro h
    have hinf : inferChannels shape sd 0 = 1 := by
      unfold inferChannels
      simp [h]
    refine ⟨hinf, ?_⟩
    unfold allocShape
    simp only [hinf]
    simp [← h, List.take_left]
  · intro h
    unfold inferChannels
    simp [h]

/-- C4 witness: the inference at a shape of matching rank and at the
trailing-channel rank behaves as the amended claim states. -/
theorem c4_channel_inference_witness :
    (inferChannels [4, 3] 2 0 = 1 ∧ allocShape [4, 3] 2 0 = [4, 3]) ∧
    inferChannels [4, 3, 3] 2 0 = 3 :=
  ⟨(c4_channel_inference_amended [4, 3] 2).1 (by decide),
   (c4_channel_inference_amended [4, 3, 3] 2).2 (by decide)⟩

/-- C3: resolution of the order token 'A' in `constructNumpyArray`.
Without an input array the token resolves to ChannelMajor ('V'); when an
existing array is copied with the same rank, its stride ordering is kept
unchanged; when the target has one dimension more (channel axis added),
every rank is shifted up by one and the channel axis gets rank 0
(innermost); when the target has one dimension less and the dropped
trailing channel axis had rank 0 (channel axis dropped), the surviving
ranks are all shifted down by one. -/
theorem c3_order_auto_resolution :
    (∀ n, adjustA none n .A = (.V, none)) ∧
    (∀ (so : List Nat) n, so.length = n →
      adjustA (some so) n .A = (.A, some so)) ∧
    (∀ (so : List Nat) n, so.length + 1 = n →
      adjustA (some so) n .A = (.A, some (so.map (· + 1) ++ [0]))) ∧
    (∀ (so : List Nat) n, so.length = n + 1 → so.getD n 0 = 0 →
      adjustA (some so) n .A = (.A, some ((so.take n).map (· - 1)))) := by
  refine ⟨fun n => rfl, ?_, ?_, ?_⟩
  · intro so n h
    show (if n < so.length then _ else if so.length < n then _ else _) = _
    rw [if_neg (by omega), if_neg (by omega)]
  · intro so n h
    show (if n < so.length then _ else if so.length < n then _ else _) = _
    rw [if_neg (by omega), if_pos (by omega)]
  · intro so n h h0
    show (if n < so.length then
            if so.getD n 0 = 0 then _ else _
          else _) = _
    rw [if_pos (by omega), if_pos h0]

/-- C3 witness: the four branches at concrete stride orderings — a fresh
allocation, a same-rank copy, a channel axis added to a 2-D Fortran-ordered
input, and an innermost channel axis dropped from a 3-D 'V'-ordered
input. -/
theorem c3_order_auto_resolution_witness :
    adjustA none 2 .A = (.V, none) ∧
    adjustA (some [1, 2, 0]) 3 .A = (.A, some [1, 2, 0]) ∧
    adjustA (some [0, 1]) 3 .A = (.A, some [1, 2, 0]) ∧
    adjustA (some [1, 2, 0]) 2 .A = (.A, some [0, 1]) :=
  ⟨c3_order_auto_resolution.1 2,
   c3_order_auto_resolution.2.1 [1, 2, 0] 3 (by decide),
   c3_order_auto_resolution.2.2.1 [0, 1] 3 (by decide),
   c3_order_auto_resolution.2.2.2 [1, 2, 0] 2 (by decide) (by decide)⟩

/-- The transform of a rendered axis list is the rendered provenance: the
recursion of `tagTransform` and the recursion of `provenance` walk the
index expression in lockstep. -/
theorem tagTransform_provenance (g : Nat → AxisInfo) :
    ∀ (items : List BasicItem) (L : List Nat),
      tagTransform (L.map g) items =
        (provenance L items).map (fun o => o.elim .unknown g) := by
  intro items
  induction items with
  | nil =>
    intro L
    simp [tagTransform, provenance, Function.comp]
  | cons it rest ih =>
    intro L
    cases it with
    | newaxisIdx => simp [tagTransform, provenance, ih]
    | intIdx i =>
      cases L with
      | nil => simpa [tagTransform, provenance] using ih []
      | cons ax as => simpa [tagTransform, provenance] using ih as
    | sliceIdx m =>
      cases L with
      | nil => simpa [tagTransform, provenance] using ih []
      | cons ax as => simp [tagTransform, provenance, ih as]

/-- Reading every position of a list back with its default-valued getter
reproduces the list. -/
theorem map_range_getD (l : List α) (d : α) :
    (List.range l.length).map (fun j => l.getD j d) = l := by
  apply List.ext_getElem
  · simp
  · intro i h1 h2
    simp [List.getD_eq_getElem?_getD, List.getElem?_eq_getElem h2]

/-- C5: tag propagation of `__getitem__`.  For a view (basic indexing,
result shares the buffer), the result's tags are described positionally by
the provenance of each result axis: an axis surviving from source axis j
(an unindexed axis or one kept by a slice) keeps tag j, an axis introduced
by newaxis gets the unknown tag, and axes consumed by integer indices are
gone from the provenance.  For an indexing that forces a copy, all tags
are replaced by N unknown tags, N the result's dimensionality. -/
theorem c5_getitem_tag_propagation (a : VArr) (items : List BasicItem)
    (rs : List Nat) :
    (a.getitemOp (.basic items)).tags =
      (provenance (List.range a.tags.length) items).map
        (fun o => o.elim .unknown (fun j => a.tags.getD j .unknown)) ∧
    (a.getitemOp (.fancyIdx rs)).tags =
      unknownTags (a.getitemOp (.fancyIdx rs)).ndim := by
  constructor
  · have h := tagTransform_provenance
      (fun j => a.tags.getD j .unknown) items (List.range a.tags.length)
    rw [map_range_getD] at h
    simpa [VArr.getitemOp] using h
  · simp [VArr.getitemOp, unknownTags, VArr.ndim]

/-- The tag transform and the view shape of a basic index expression have
the same length whenever the input tags match the input rank: the two
recursions consume tags and dimensions in lockstep. -/
theorem length_tagTransform_viewShape :
    ∀ (items : List BasicItem) (shape : List Nat) (tags : List AxisInfo),
      tags.length = shape.length →
      (tagTransform tags items).length = (viewShape shape items).length := by
  intro items
  induction items with
  | nil => intro shape tags h; simpa [tagTransform, viewShape] using h
  | cons it rest ih =>
    intro shape tags h
    cases it with
    | newaxisIdx => simp [tagTransform, viewShape, ih shape tags h]
    | intIdx i =>
      cases shape with
      | nil =>
        have htags : tags = [] := by simpa using h
        subst htags
        simpa [tagTransform, viewShape] using ih [] [] rfl
      | cons s ss =>
        cases tags with
        | nil => simp at h
        | cons tg ts =>
          simp only [List.length_cons, Nat.succ_inj] at h
          simpa [tagTransform, viewShape] using ih ss ts h
    | sliceIdx m =>
      cases shape with
      | nil =>
        have htags : tags = [] := by simpa using h
        subst htags
        simpa [tagTransform, viewShape] using ih [] [] rfl
      | cons s ss =>
        cases tags with
        | nil => simp at h
        | cons tg ts =>
          simp only [List.length_cons, Nat.succ_inj] at h
          simp [tagTransform, viewShape, ih ss ts h]

/-- The squeeze tag fold keeps exactly as many tags as the shape filter
keeps extents, whenever the tags match the rank. -/
theorem length_squeeze_fold :
    ∀ (shape : List Nat) (tags : List AxisInfo),
      tags.length = shape.length →
      ((shape.zip tags).foldr
        (fun p acc => if p.1 = 1 then acc else p.2 :: acc) []).length =
      (shape.filter (· ≠ 1)).length := by
  intro shape
  induction shape with
  | nil => intro tags h; simp [List.length_eq_zero] at h; simp [h]
  | cons s ss ih =>
    intro tags h
    cases tags with
    | nil => simp at h
    | cons tg ts =>
      simp only [List.length_cons, Nat.succ_inj] at h
      have hz : (s :: ss).zip (tg :: ts) = (s, tg) :: ss.zip ts := rfl
      rw [hz, List.foldr_cons]
      by_cases hs : s = 1
      · simpa [hs, List.filter_cons] using ih ts h
      · simpa [hs, List.filter_cons] using ih ts h

/-- C1 counterexample: `take` with a scalar index and a non-None axis on a
4x3 image tagged (x, y) drops the indexed dimension but keeps both
inherited tags, so the result has 2 tags on 1 dimension. -/
theorem c1_take_scalar_counterexample :
    VArr.takeOp ⟨[4, 3], [.x, .y]⟩ (.scalar 0) (some 0) =
      some ⟨[3], [.x, .y]⟩ ∧
    ¬ tagOK (⟨[3], [.x, .y]⟩ : VArr) := by decide

/-- C1 amended: for every shape- or axis-changing operation of the tagged
array type — indexing/slicing (view or copy), the axis reductions
sum/mean/min/max, transpose (with or without a permutation), swapaxes,
reshape, ravel, flatten, squeeze, repeat, and take with a sequence of
indices — the result's axistags length equals the result's
dimensionality; the sole exception is take with a scalar index and a
non-None axis, where the inherited tags keep the input's full length
while the rank shrinks by one (the counterexample above). -/
theorem c1_tag_length_invariant (a : VArr) (h : tagOK a) :
    (∀ items : List BasicItem, tagOK (a.getitemOp (.basic items))) ∧
    (∀ rs : List Nat, tagOK (a.getitemOp (.fancyIdx rs))) ∧
    (∀ axis, axis < a.ndim →
      tagOK (a.sumAxis axis) ∧ tagOK (a.meanAxis axis) ∧
      tagOK (a.minAxis axis) ∧ tagOK (a.maxAxis axis)) ∧
    (∀ perm : List Nat, tagOK (a.transposePerm perm)) ∧
    tagOK a.transposeRev ∧
    (∀ i j, tagOK (a.swapaxesOp i j)) ∧
    (∀ ns : List Nat, tagOK (a.reshapeOp ns)) ∧
    tagOK a.ravelOp ∧
    tagOK a.flattenOp ∧
    tagOK a.squeezeOp ∧
    (∀ reps axis, tagOK (a.repeatOp reps axis)) ∧
    (∀ (l : List Int) axis, ∀ r ∈ a.takeOp (.seq l) axis, tagOK r) := by
  unfold tagOK VArr.ndim at h
  refine ⟨?_, ?_, ?_, ?_, ?_, ?_, ?_, ?_, ?_, ?_, ?_, ?_⟩
  · intro items
    exact length_tagTransform_viewShape items a.shape a.tags h
  · intro rs
    simp [VArr.getitemOp, tagOK, VArr.ndim, unknownTags]
  · intro axis haxis
    have haxis' : axis < a.shape.length := haxis
    have hlen : (a.tags.eraseIdx axis).length =
        (a.shape.eraseIdx axis).length := by
      rw [List.length_eraseIdx, List.length_eraseIdx,
        if_pos (show axis < a.tags.length by omega), if_pos haxis']
      omega
    exact ⟨hlen, hlen, hlen, hlen⟩
  · intro perm
    simp [VArr.transposePerm, tagOK, VArr.ndim]
  · simpa [VArr.transposeRev, tagOK, VArr.ndim] using h
  · intro i j
    simpa [VArr.swapaxesOp, tagOK, VArr.ndim] using h
  · intro ns
    simp [VArr.reshapeOp, tagOK, VArr.ndim, unknownTags]
  · simp [VArr.ravelOp, tagOK, VArr.ndim, unknownTags]
  · simp [VArr.flattenOp, tagOK, VArr.ndim, unknownTags]
  · exact length_squeeze_fold a.shape a.tags h
  · intro reps axis
    cases axis with
    | none => simp [VArr.repeatOp, tagOK, VArr.ndim, unknownTags]
    | some k => simpa [VArr.repeatOp, tagOK, VArr.ndim] using h
  · intro l axis r hr
    cases axis with
    | none =>
      simp only [VArr.takeOp, Option.mem_def, Option.some_inj] at hr
      subst hr
      simp [tagOK, VArr.ndim, unknownTags]
    | some k =>
      simp only [VArr.takeOp, Option.mem_def, Option.some_inj] at hr
      subst hr
      simpa [tagOK, VArr.ndim] using h

/-- C1 witness: the invariant instantiated on a 4x1 image tagged (x, y):
an integer indexing view, a reduction along axis 0, a squeeze and a
sequence take all keep tag count equal to rank. -/
theorem c1_tag_length_witness :
    tagOK (VArr.getitemOp ⟨[4, 1], [.x, .y]⟩ (.basic [.intIdx 0])) ∧
    tagOK (VArr.sumAxis ⟨[4, 1], [.x, .y]⟩ 0) ∧
    tagOK (VArr.squeezeOp ⟨[4, 1], [.x, .y]⟩) ∧
    ∀ r ∈ VArr.takeOp ⟨[4, 1], [.x, .y]⟩ (.seq [0, 2]) (some 0), tagOK r :=
  ⟨(c1_tag_length_invariant ⟨[4, 1], [.x, .y]⟩ (by decide)).1 [.intIdx 0],
   ((c1_tag_length_invariant ⟨[4, 1], [.x, .y]⟩ (by decide)).2.2.1 0
     (by decide)).1,
   (c1_tag_length_invariant ⟨[4, 1], [.x, .y]⟩
     (by decide)).2.2.2.2.2.2.2.2.2.1,
   (c1_tag_length_invariant ⟨[4, 1], [.x, .y]⟩
     (by decide)).2.2.2.2.2.2.2.2.2.2.2 [0, 2] (some 0)⟩

/-- The last element with default is the element at the last position. -/
theorem getLastD_eq_getD {α : Type} :
    ∀ (l : List α) (d : α), l.getLastD d = l.getD (l.length - 1) d
  | [], _ => rfl
  | [_], _ => rfl
  | a :: b :: bs, d => by
    have ih := getLastD_eq_getD (b :: bs) a
    rw [List.getLastD_cons d a (b :: bs), ih]
    simp [List.getD_cons_succ]

/-- Halving after doubling is the identity on extents (`(2k-1+1)/2 = k`). -/
theorem halveDim_doubleDim (d : Nat) : halveDim (doubleDim d) = d := by
  unfold halveDim doubleDim
  omega

/-- Appending the halved last level preserves the adjacent halving law. -/
theorem adjHalf_append_halve (ss : List (List Nat)) (h : ss ≠ [])
    (ha : adjHalf ss) :
    adjHalf (ss ++ [(ss.getLastD []).map halveDim]) := by
  intro i hi
  simp only [List.length_append, List.length_cons, List.length_nil] at hi
  by_cases hlt : i + 1 < ss.length
  · rw [List.getD_append _ _ _ _ hlt, List.getD_append _ _ _ _ (by omega)]
    exact ha i (by omega)
  · have hieq : i + 1 = ss.length := by
      have hpos : 0 < ss.length := List.length_pos.mpr h
      omega
    rw [List.getD_append_right _ _ _ _ (by omega),
      List.getD_append _ _ _ _ (by omega)]
    have h0 : i + 1 - ss.length = 0 := by omega
    rw [h0, List.getD_cons_zero, getLastD_eq_getD]
    have hidx : ss.length - 1 = i := by omega
    rw [hidx]

/-- Appending the halved last level preserves extent positivity. -/
theorem posShapes_append_halve (ss : List (List Nat)) (hp : posShapes ss) :
    posShapes (ss ++ [(ss.getLastD []).map halveDim]) := by
  intro s hs d hd
  rcases List.mem_append.mp hs with hmem | hmem
  · exact hp s hmem d hd
  · rcases List.mem_singleton.mp hmem with rfl
    rcases List.mem_map.mp hd with ⟨e, he, rfl⟩
    cases ss with
    | nil => simp at he
    | cons s0 rest =>
      have hmem2 : (s0 :: rest).getLastD [] ∈ (s0 :: rest) := by
        rw [getLastD_eq_getD]
        have hlen : (s0 :: rest).length - 1 < (s0 :: rest).length := by
          simp
        rw [List.getD_eq_getElem _ _ hlen]
        exact List.getElem_mem hlen
      have := hp _ hmem2 e he
      unfold halveDim
      omega

/-- The upward growth loop preserves the halving law, positivity and
non-emptiness. -/
theorem growUpShapes_invariant :
    ∀ (n : Nat) (ss : List (List Nat)), ss ≠ [] → adjHalf ss →
      posShapes ss →
      adjHalf (growUpShapes ss n) ∧ posShapes (growUpShapes ss n) ∧
        growUpShapes ss n ≠ [] := by
  intro n
  induction n with
  | zero => intro ss hne ha hp; exact ⟨ha, hp, hne⟩
  | succ m ih =>
    intro ss hne ha hp
    unfold growUpShapes
    exact ih _ (by simp) (adjHalf_append_halve ss hne ha)
      (posShapes_append_halve ss hp)

/-- Prepending the doubled first level preserves the adjacent halving law. -/
theorem adjHalf_cons_double (ss : List (List Nat)) (ha : adjHalf ss) :
    adjHalf (((ss.getD 0 []).map doubleDim) :: ss) := by
  intro i hi
  simp only [List.length_cons] at hi
  cases i with
  | zero =>
    rw [List.getD_cons_succ, List.getD_cons_zero, List.map_map]
    conv_lhs => rw [← List.map_id (ss.getD 0 [])]
    apply List.map_congr_left
    intro d _
    exact (halveDim_doubleDim d).symm
  | succ j =>
    rw [List.getD_cons_succ, List.getD_cons_succ]
    exact ha j (by omega)

/-- Prepending the doubled first level preserves extent positivity. -/
theorem posShapes_cons_double (ss : List (List Nat)) (hp : posShapes ss) :
    posShapes (((ss.getD 0 []).map doubleDim) :: ss) := by
  intro s hs d hd
  rcases List.mem_cons.mp hs with rfl | hmem
  · rcases List.mem_map.mp hd with ⟨e, he, rfl⟩
    cases ss with
    | nil => simp at he
    | cons s0 rest =>
      have := hp s0 (List.mem_cons_self _ _) e (by simpa using he)
      unfold doubleDim
      omega
  · exact hp s hmem d hd

/-- `createLevel` preserves the halving law and positivity whenever any
downward growth is by at most one level, and lowers `lowest` to the new
level exactly in the downward case. -/
theorem createLevel_shape_invariant (p : PyrShapes) (level : Int)
    (hne : p.levels ≠ []) (ha : adjHalf p.levels) (hp : posShapes p.levels)
    (hl : p.lowest - 1 ≤ level) :
    adjHalf (p.createLevel level).levels ∧
    posShapes (p.createLevel level).levels ∧
    (p.createLevel level).levels ≠ [] ∧
    ((p.createLevel level).lowest = p.lowest ∨
      (p.createLevel level).lowest = level) := by
  unfold PyrShapes.createLevel
  split_ifs with h1 h2
  · have := growUpShapes_invariant (level - p.highest).toNat p.levels hne ha hp
    exact ⟨this.1, this.2.1, this.2.2, Or.inl rfl⟩
  · have hn : (p.lowest - level).toNat = 1 := by omega
    rw [hn]
    have hrepl : List.replicate 1 ((p.levels.getD 0 []).map doubleDim) ++
        p.levels = ((p.levels.getD 0 []).map doubleDim) :: p.levels := by
      simp
    rw [hrepl]
    exact ⟨adjHalf_cons_double p.levels ha, posShapes_cons_double p.levels hp,
      by simp, Or.inr rfl⟩
  · exact ⟨ha, hp, hne, Or.inl rfl⟩

/-- C6 counterexample: three failures of the claim as stated.  (a) After
constructing a pyramid over an 8x8 single-channel image with levels 0..1,
level 0 has shape [8,8] while 2*level1-1 = [7,7], so the doubling law
fails for an even extent.  (b) For a 3-channel 4x3 image, level 1 has
shape [2,2,2]: the channel extent 3 is halved to 2, not kept.  (c)
Constructing with lowestLevel = -2 grows downward two levels from the
once-fetched original image, so levels -2 and -1 both get shape [9,9]
and the halving law fails between them. -/
theorem c6_shape_law_counterexample :
    (pyramidInitBody [8, 8] 0 0 1).levels.getD 0 [] ≠
      ((pyramidInitBody [8, 8] 0 0 1).levels.getD 1 []).map doubleDim ∧
    ((pyramidInitBody [4, 3, 3] 0 0 1).levels.getD 1 []).getD 2 0 ≠ 3 ∧
    ¬ adjHalf (pyramidInitBody [5, 5] 0 (-2) 0).levels := by decide

/-- C6 amended: (i) whenever a pyramid with positive extents satisfies the
adjacent halving law (level k+1 is the rounded-up half of level k along
every axis, the channel axis included) and `createLevel` grows downward by
at most one level, the law and positivity still hold afterwards; (ii) in
particular the law holds after construction whenever lowestLevel is at
least copyImagedestLevel - 1; (iii) the doubling law
shape(k) = 2*shape(k+1) - 1 holds exactly for those adjacent pairs whose
lower level has all-odd extents (for example every level synthesized by
downward growth), and fails otherwise — it is a consequence of the halving
law, not an unconditional invariant. -/
theorem c6_pyramid_shape_law_amended :
    (∀ (p : PyrShapes) (level : Int), p.levels ≠ [] → adjHalf p.levels →
      posShapes p.levels → p.lowest - 1 ≤ level →
      adjHalf (p.createLevel level).levels ∧
        posShapes (p.createLevel level).levels) ∧
    (∀ (s : List Nat) (copyLevel low high : Int), (∀ d ∈ s, 1 ≤ d) →
      low ≤ copyLevel → copyLevel ≤ high → copyLevel - 1 ≤ low →
      adjHalf (pyramidInitBody s copyLevel low high).levels) ∧
    (∀ (ss : List (List Nat)) (i : Nat), adjHalf ss → i < ss.length - 1 →
      (∀ d ∈ ss.getD i [], d % 2 = 1) →
      ss.getD i [] = (ss.getD (i + 1) []).map doubleDim) := by
  refine ⟨?_, ?_, ?_⟩
  · intro p level hne ha hp hl
    have h := createLevel_shape_invariant p level hne ha hp hl
    exact ⟨h.1, h.2.1⟩
  · intro s copyLevel low high hs hlc hch hcl
    unfold pyramidInitBody
    set base : PyrShapes := ⟨[s], copyLevel⟩ with hbase
    have hbne : base.levels ≠ [] := by simp [hbase]
    have hba : adjHalf base.levels := by
      intro i hi
      simp [hbase] at hi
    have hbp : posShapes base.levels := by
      intro sh hsh d hd
      rcases List.mem_singleton.mp hsh with rfl
      exact hs d hd
    have h1 := createLevel_shape_invariant base low hbne hba hbp
      (show copyLevel - 1 ≤ low from hcl)
    have hlow : (base.createLevel low).lowest ≤ copyLevel := by
      rcases h1.2.2.2 with heq | heq
      · rw [heq]
      · rw [heq]; exact hlc
    have h2 := createLevel_shape_invariant (base.createLevel low) high
      h1.2.2.1 h1.1 h1.2.1 (by omega)
    exact h2.1
  · intro ss i ha hi hodd
    rw [ha i hi, List.map_map]
    conv_lhs => rw [← List.map_id (ss.getD i [])]
    apply List.map_congr_left
    intro d hd
    have hmod := hodd d hd
    simp only [id_eq, Function.comp_apply, doubleDim, halveDim]
    omega

/-- C6 witness: a pyramid over a 5x5 image with levels -1..2 satisfies the
halving law after construction, and the doubling law holds for its
all-odd adjacent pair (-1, 0). -/
theorem c6_pyramid_shape_law_witness :
    adjHalf (pyramidInitBody [5, 5] 0 (-1) 2).levels ∧
    (pyramidInitBody [5, 5] 0 (-1) 2).levels.getD 0 [] =
      ((pyramidInitBody [5, 5] 0 (-1) 2).levels.getD 1 []).map doubleDim :=
  ⟨c6_pyramid_shape_law_amended.2.1 [5, 5] 0 (-1) 2 (by decide) (by omega)
     (by omega) (by omega),
   c6_pyramid_shape_law_amended.2.2 (pyramidInitBody [5, 5] 0 (-1) 2).levels
     0 (by decide) (by decide) (by decide)⟩

/-- The C-contiguity flag in propositional form. -/
theorem cContigB_iff (shape strides : List Nat) :
    cContigB shape strides = true ↔ (0 ∈ shape ∨ strides = Cstrides shape) := by
  unfold cContigB
  rw [Bool.or_eq_true, List.elem_iff, beq_iff_eq]

/-- The Fortran-contiguity flag in propositional form. -/
theorem fContigB_iff (shape strides : List Nat) :
    fContigB shape strides = true ↔ (0 ∈ shape ∨ strides = Fstrides shape) := by
  unfold fContigB
  rw [Bool.or_eq_true, List.elem_iff, beq_iff_eq]

/-- The 'V' monotonicity fold stays non-negative over a non-decreasing
chain when started from a non-negative accumulator below the chain. -/
theorem vfold_nonneg :
    ∀ (l : List Nat) (acc : Nat), List.Chain' (· ≤ ·) ((acc : Nat) :: l) →
      0 ≤ l.foldl
        (fun (x : Int) (y : Nat) =>
          if (y : Int) ≥ x ∧ x ≥ 0 then (y : Int) else -1)
        (acc : Int) := by
  intro l
  induction l with
  | nil => intro acc _; exact Int.ofNat_nonneg acc
  | cons y ys ih =>
    intro acc hch
    rw [List.chain'_cons] at hch
    rw [List.foldl_cons,
      if_pos ⟨by exact_mod_cast hch.1, Int.ofNat_nonneg acc⟩]
    exact ih y hch.2

/-- The 'V' monotonicity test passes on non-decreasing leading strides. -/
theorem vMonotone_nonneg (l : List Nat) (e : Nat)
    (h : List.Chain' (· ≤ ·) l) : 0 ≤ vMonotone (l ++ [e]) := by
  unfold vMonotone
  rw [List.dropLast_concat]
  cases l with
  | nil => simp
  | cons a as =>
    rw [List.foldl_cons, if_pos ⟨Int.ofNat_nonneg a, le_refl (0 : Int)⟩]
    exact vfold_nonneg as a h

/-- Cancellation helper: `c * x = c` forces `x = 1` for positive c. -/
theorem mul_eq_self_cancel (c x : Nat) (hc : 0 < c) (h : c * x = c) :
    x = 1 := by
  have h2 : c * x = c * 1 := by omega
  exact Nat.eq_of_mul_eq_mul_left hc h2

/-- The order query reports 'C' when the strides are the canonical
C strides. -/
theorem arrayOrder_eq_C (sd : Nat) (shape strides : List Nat)
    (hC : strides = Cstrides shape) :
    arrayOrder sd shape strides = .C := by
  rw [arrayOrder, if_pos]
  rw [cContigB_iff]
  exact Or.inr hC

/-- The order query reports 'F' when the strides are the canonical Fortran
strides, the shape has no zero extent, and the strides are not also the
C strides. -/
theorem arrayOrder_eq_F (sd : Nat) (shape strides : List Nat)
    (h0 : 0 ∉ shape) (hnc : strides ≠ Cstrides shape)
    (hF : strides = Fstrides shape) :
    arrayOrder sd shape strides = .F := by
  rw [arrayOrder, if_neg, if_pos]
  · rw [fContigB_iff]
    exact Or.inr hF
  · rw [cContigB_iff]
    push_neg
    exact ⟨h0, hnc⟩

/-- The order query reports 'V' when the strides match neither canonical
pattern, there is more than one channel, the trailing stride is one
element and the leading strides are non-decreasing. -/
theorem arrayOrder_eq_V (sd : Nat) (shape strides : List Nat)
    (h0 : 0 ∉ shape) (hnc : strides ≠ Cstrides shape)
    (hnf : strides ≠ Fstrides shape) (hband : 1 < bandsOf shape sd)
    (hlast : strides.getLastD 0 = 1) (hmono : 0 ≤ vMonotone strides) :
    arrayOrder sd shape strides = .V := by
  rw [arrayOrder, if_neg, if_neg, if_pos ⟨hband, hlast, hmono⟩]
  · rw [fContigB_iff]
    push_neg
    exact ⟨h0, hnf⟩
  · rw [cContigB_iff]
    push_neg
    exact ⟨h0, hnc⟩

/-- Round-trip of the order tokens through construction and the order
query for a 2-D spatial shape [a, b] with ch channels. -/
theorem c2aux2 (a b ch : Nat) (ha : 1 ≤ a) (hb : 1 ≤ b) (hch : 1 ≤ ch) :
    arrayOrder 2 (pshapeOf [a, b] ch) (constructStrides [a, b] ch .C) =
      .C ∧
    (2 ≤ a ∨ 2 ≤ b ∨ 2 ≤ ch →
      arrayOrder 2 (pshapeOf [a, b] ch) (constructStrides [a, b] ch .F) =
        .F) ∧
    (ch = 1 → 2 ≤ a ∨ 2 ≤ b →
      arrayOrder 2 (pshapeOf [a, b] ch) (constructStrides [a, b] ch .V) =
        .F) ∧
    (2 ≤ ch → 2 ≤ a ∨ 2 ≤ b →
      arrayOrder 2 (pshapeOf [a, b] ch) (constructStrides [a, b] ch .V) =
        .V) := by
  by_cases hc1 : ch = 1
  · subst hc1
    refine ⟨?_, ?_, ?_, ?_⟩
    · exact arrayOrder_eq_C 2 [a, b] _ rfl
    · intro hex
      apply arrayOrder_eq_F 2 [a, b] _ (by simp; omega) ?_ rfl
      intro heq
      have h2 : ([1, 1 * a] : List Nat) = [1 * b, 1] := heq
      simp at h2
      omega
    · intro _ hex
      apply arrayOrder_eq_F 2 [a, b] _ (by simp; omega) ?_ rfl
      intro heq
      have h2 : ([1, 1 * a] : List Nat) = [1 * b, 1] := heq
      simp at h2
      omega
    · intro h2c
      omega
  · have hch2 : 2 ≤ ch := by omega
    have hpsh : pshapeOf [a, b] ch = [a, b, ch] := by
      simp only [pshapeOf, if_neg hc1]
      rfl
    have hsC : constructStrides [a, b] ch .C = [1 * ch * b, 1 * ch, 1] := by
      simp only [constructStrides, pshapeOf, strideOrderingOf, if_neg hc1]
      rfl
    have hsF : constructStrides [a, b] ch .F = [1, 1 * a, 1 * a * b] := by
      simp only [constructStrides, pshapeOf, strideOrderingOf, if_neg hc1]
      rfl
    have hsV : constructStrides [a, b] ch .V = [1 * ch, 1 * ch * a, 1] := by
      simp only [constructStrides, pshapeOf, strideOrderingOf, if_neg hc1]
      rfl
    refine ⟨?_, ?_, ?_, ?_⟩
    · rw [hpsh, hsC]
      exact arrayOrder_eq_C 2 [a, b, ch] _ rfl
    · intro _
      rw [hpsh, hsF]
      apply arrayOrder_eq_F 2 [a, b, ch] _ (by simp; omega) ?_ rfl
      intro heq
      have h2 : ([1, 1 * a, 1 * a * b] : List Nat) =
          [1 * ch * b, 1 * ch, 1] := heq
      simp at h2
      have hle : 2 * 1 ≤ ch * b := Nat.mul_le_mul hch2 hb
      omega
    · intro h1
      exact absurd h1 hc1
    · intro _ hex
      rw [hpsh, hsV]
      apply arrayOrder_eq_V 2 [a, b, ch] _ (by simp; omega) ?_ ?_ ?_ ?hl ?_
      case hl => rfl
      · intro heq
        have h2 : ([1 * ch, 1 * ch * a, 1] : List Nat) =
            [1 * ch * b, 1 * ch, 1] := heq
        simp at h2
        rcases hex with ha2 | hb2
        · have := mul_eq_self_cancel ch a (by omega) h2.2
          omega
        · have := mul_eq_self_cancel ch b (by omega) h2.1.symm
          omega
      · intro heq
        have h2 : ([1 * ch, 1 * ch * a, 1] : List Nat) =
            [1, 1 * a, 1 * a * b] := heq
        simp at h2
        omega
      · show (1 : Nat) < bandsOf [a, b, ch] 2
        have hband : bandsOf [a, b, ch] 2 = ch := rfl
        omega
      · show (0 : Int) ≤ vMonotone [1 * ch, 1 * ch * a, 1]
        apply vMonotone_nonneg [1 * ch, 1 * ch * a] 1
        have hle : 1 * ch * 1 ≤ 1 * ch * a :=
          Nat.mul_le_mul (le_refl (1 * ch)) ha
        simp only [List.chain'_cons, List.chain'_singleton, and_true]
        omega


/-- Round-trip of the order tokens through construction and the order
query for a 3-D spatial shape [a, b, d] with ch channels. -/
theorem c2aux3 (a b d ch : Nat) (ha : 1 ≤ a) (hb : 1 ≤ b) (hd : 1 ≤ d)
    (hch : 1 ≤ ch) :
    arrayOrder 3 (pshapeOf [a, b, d] ch)
      (constructStrides [a, b, d] ch .C) = .C ∧
    (2 ≤ a ∨ 2 ≤ b ∨ 2 ≤ d ∨ 2 ≤ ch →
      arrayOrder 3 (pshapeOf [a, b, d] ch)
        (constructStrides [a, b, d] ch .F) = .F) ∧
    (ch = 1 → 2 ≤ a ∨ 2 ≤ b ∨ 2 ≤ d →
      arrayOrder 3 (pshapeOf [a, b, d] ch)
        (constructStrides [a, b, d] ch .V) = .F) ∧
    (2 ≤ ch → 2 ≤ a ∨ 2 ≤ b ∨ 2 ≤ d →
      arrayOrder 3 (pshapeOf [a, b, d] ch)
        (constructStrides [a, b, d] ch .V) = .V) := by
  by_cases hc1 : ch = 1
  · subst hc1
    have hFneC : 2 ≤ a ∨ 2 ≤ b ∨ 2 ≤ d →
        ([1, 1 * a, 1 * a * b] : List Nat) ≠ [1 * d * b, 1 * d, 1] := by
      intro hex heq
      simp only [List.cons.injEq, one_mul, and_true] at heq
      obtain ⟨e1, e2, e3⟩ := heq
      obtain ⟨ha1, hb1⟩ := mul_eq_one.mp e3
      rw [hb1, Nat.mul_one] at e1
      omega
    refine ⟨arrayOrder_eq_C 3 [a, b, d] _ rfl, ?_, ?_, fun h2c => by omega⟩
    · intro hex
      apply arrayOrder_eq_F 3 [a, b, d] _ (by simp; omega) ?_ rfl
      intro heq
      exact hFneC (by omega) heq
    · intro _ hex
      apply arrayOrder_eq_F 3 [a, b, d] _ (by simp; omega) ?_ rfl
      intro heq
      exact hFneC hex heq
  · have hch2 : 2 ≤ ch := by omega
    have hpsh : pshapeOf [a, b, d] ch = [a, b, d, ch] := by
      simp only [pshapeOf, if_neg hc1]
      rfl
    have hsC : constructStrides [a, b, d] ch .C =
        [1 * ch * d * b, 1 * ch * d, 1 * ch, 1] := by
      simp only [constructStrides, pshapeOf, strideOrderingOf, if_neg hc1]
      rfl
    have hsF : constructStrides [a, b, d] ch .F =
        [1, 1 * a, 1 * a * b, 1 * a * b * d] := by
      simp only [constructStrides, pshapeOf, strideOrderingOf, if_neg hc1]
      rfl
    have hsV : constructStrides [a, b, d] ch .V =
        [1 * ch, 1 * ch * a, 1 * ch * a * b, 1] := by
      simp only [constructStrides, pshapeOf, strideOrderingOf, if_neg hc1]
      rfl
    refine ⟨?_, ?_, ?_, ?_⟩
    · rw [hpsh, hsC]
      exact arrayOrder_eq_C 3 [a, b, d, ch] _ rfl
    · intro _
      rw [hpsh, hsF]
      apply arrayOrder_eq_F 3 [a, b, d, ch] _ (by simp; omega) ?_ rfl
      intro heq
      have h2 : ([1, 1 * a, 1 * a * b, 1 * a * b * d] : List Nat) =
          [1 * ch * d * b, 1 * ch * d, 1 * ch, 1] := heq
      simp only [List.cons.injEq, one_mul, and_true] at h2
      have hle : 2 * 1 * 1 ≤ ch * d * b :=
        Nat.mul_le_mul (Nat.mul_le_mul hch2 hd) hb
      omega
    · intro h1
      exact absurd h1 hc1
    · intro _ hex
      rw [hpsh, hsV]
      apply arrayOrder_eq_V 3 [a, b, d, ch] _ (by simp; omega) ?_ ?_ ?_ ?hl ?_
      case hl => rfl
      · intro heq
        have h2 : ([1 * ch, 1 * ch * a, 1 * ch * a * b, 1] : List Nat) =
            [1 * ch * d * b, 1 * ch * d, 1 * ch, 1] := heq
        simp only [List.cons.injEq, one_mul, and_true] at h2
        obtain ⟨e1, e2, e3⟩ := h2
        rcases hex with ha2 | hb2 | hd2
        · rw [Nat.mul_assoc] at e3
          obtain ⟨ha1, hb1⟩ :=
            mul_eq_one.mp (mul_eq_self_cancel ch (a * b) (by omega) e3)
          omega
        · rw [Nat.mul_assoc] at e3
          obtain ⟨ha1, hb1⟩ :=
            mul_eq_one.mp (mul_eq_self_cancel ch (a * b) (by omega) e3)
          omega
        · rw [Nat.mul_assoc] at e1
          obtain ⟨hd1, hb1⟩ :=
            mul_eq_one.mp
              (mul_eq_self_cancel ch (d * b) (by omega) e1.symm)
          omega
      · intro heq
        have h2 : ([1 * ch, 1 * ch * a, 1 * ch * a * b, 1] : List Nat) =
            [1, 1 * a, 1 * a * b, 1 * a * b * d] := heq
        simp only [List.cons.injEq, one_mul] at h2
        omega
      · show (1 : Nat) < bandsOf [a, b, d, ch] 3
        have hband : bandsOf [a, b, d, ch] 3 = ch := rfl
        omega
      · show (0 : Int) ≤ vMonotone [1 * ch, 1 * ch * a, 1 * ch * a * b, 1]
        apply vMonotone_nonneg [1 * ch, 1 * ch * a, 1 * ch * a * b] 1
        have hle1 : 1 * ch * 1 ≤ 1 * ch * a :=
          Nat.mul_le_mul (le_refl (1 * ch)) ha
        have hle2 : 1 * ch * a * 1 ≤ 1 * ch * a * b :=
          Nat.mul_le_mul (le_refl (1 * ch * a)) hb
        simp only [List.chain'_cons, List.chain'_singleton, and_true]
        omega

/-- C2 counterexample: a ScalarImage of the degenerate all-ones shape
constructed with the token 'F' reports order 'C', because its single
stride pattern satisfies the C-contiguity test, which the order query
checks first. -/
theorem c2_roundtrip_counterexample :
    arrayOrder 2 (pshapeOf [1, 1] 1) (constructStrides [1, 1] 1 .F) ≠
      .F ∧
    arrayOrder 2 (pshapeOf [1, 1] 1) (constructStrides [1, 1] 1 .F) =
      .C := by decide

/-- C2 amended: for spatial shapes of dimensionality 2 or 3 with positive
extents and a positive channel count, constructing with 'C' always reads
back 'C'; constructing with 'F' reads back 'F' provided some allocated
extent exceeds 1 (some spatial extent, or the channel count); 'V' with one
channel reads back its degenerate equivalent 'F' under the same proviso;
and 'V' with more than one channel reads back 'V' provided some spatial
extent exceeds 1.  In the excluded degenerate cases (an all-ones shape, or
all-ones spatial extents for 'V') the stride patterns coincide and the
query reports 'C'. -/
theorem c2_order_roundtrip_amended (sshape : List Nat) (ch : Nat)
    (hlen : sshape.length = 2 ∨ sshape.length = 3)
    (hpos : ∀ x ∈ sshape, 1 ≤ x) (hch : 1 ≤ ch) :
    arrayOrder sshape.length (pshapeOf sshape ch)
      (constructStrides sshape ch .C) = .C ∧
    ((∃ x ∈ sshape, 2 ≤ x) ∨ 2 ≤ ch →
      arrayOrder sshape.length (pshapeOf sshape ch)
        (constructStrides sshape ch .F) = .F) ∧
    (ch = 1 → (∃ x ∈ sshape, 2 ≤ x) →
      arrayOrder sshape.length (pshapeOf sshape ch)
        (constructStrides sshape ch .V) = .F) ∧
    (2 ≤ ch → (∃ x ∈ sshape, 2 ≤ x) →
      arrayOrder sshape.length (pshapeOf sshape ch)
        (constructStrides sshape ch .V) = .V) := by
  rcases sshape with _ | ⟨a, _ | ⟨b, _ | ⟨d, _ | ⟨e, rest⟩⟩⟩⟩
  · simp at hlen
  · simp at hlen
  · have ha := hpos a (by simp)
    have hb := hpos b (by simp)
    have H := c2aux2 a b ch ha hb hch
    have conv2 : (∃ x ∈ [a, b], 2 ≤ x) ∨ 2 ≤ ch →
        2 ≤ a ∨ 2 ≤ b ∨ 2 ≤ ch := by
      rintro (⟨x, hx, h2x⟩ | hc2)
      · simp at hx
        rcases hx with rfl | rfl
        · exact Or.inl h2x
        · exact Or.inr (Or.inl h2x)
      · exact Or.inr (Or.inr hc2)
    have conv1 : (∃ x ∈ [a, b], 2 ≤ x) → 2 ≤ a ∨ 2 ≤ b := by
      rintro ⟨x, hx, h2x⟩
      simp at hx
      rcases hx with rfl | rfl
      · exact Or.inl h2x
      · exact Or.inr h2x
    exact ⟨H.1, fun hex => H.2.1 (conv2 hex),
      fun h1 hex => H.2.2.1 h1 (conv1 hex),
      fun h2 hex => H.2.2.2 h2 (conv1 hex)⟩
  · have ha := hpos a (by simp)
    have hb := hpos b (by simp)
    have hd := hpos d (by simp)
    have H := c2aux3 a b d ch ha hb hd hch
    have conv2 : (∃ x ∈ [a, b, d], 2 ≤ x) ∨ 2 ≤ ch →
        2 ≤ a ∨ 2 ≤ b ∨ 2 ≤ d ∨ 2 ≤ ch := by
      rintro (⟨x, hx, h2x⟩ | hc2)
      · simp at hx
        rcases hx with rfl | rfl | rfl
        · exact Or.inl h2x
        · exact Or.inr (Or.inl h2x)
        · exact Or.inr (Or.inr (Or.inl h2x))
      · exact Or.inr (Or.inr (Or.inr hc2))
    have conv1 : (∃ x ∈ [a, b, d], 2 ≤ x) → 2 ≤ a ∨ 2 ≤ b ∨ 2 ≤ d := by
      rintro ⟨x, hx, h2x⟩
      simp at hx
      rcases hx with rfl | rfl | rfl
      · exact Or.inl h2x
      · exact Or.inr (Or.inl h2x)
      · exact Or.inr (Or.inr h2x)
    exact ⟨H.1, fun hex => H.2.1 (conv2 hex),
      fun h1 hex => H.2.2.1 h1 (conv1 hex),
      fun h2 hex => H.2.2.2 h2 (conv1 hex)⟩
  · simp at hlen

/-- C2 witness: the round trips at a 4x3 image with 3 channels (tokens
'C', 'F', 'V') and with 1 channel (token 'V' degenerating to 'F'). -/
theorem c2_order_roundtrip_witness :
    arrayOrder 2 (pshapeOf [4, 3] 3) (constructStrides [4, 3] 3 .C) =
      .C ∧
    arrayOrder 2 (pshapeOf [4, 3] 3) (constructStrides [4, 3] 3 .F) =
      .F ∧
    arrayOrder 2 (pshapeOf [4, 3] 1) (constructStrides [4, 3] 1 .V) =
      .F ∧
    arrayOrder 2 (pshapeOf [4, 3] 3) (constructStrides [4, 3] 3 .V) =
      .V :=
  ⟨(c2_order_roundtrip_amended [4, 3] 3 (by left; rfl) (by decide)
      (by decide)).1,
   (c2_order_roundtrip_amended [4, 3] 3 (by left; rfl) (by decide)
      (by decide)).2.1 (by decide),
   (c2_order_roundtrip_amended [4, 3] 1 (by left; rfl) (by decide)
      (by decide)).2.2.1 rfl (by decide),
   (c2_order_roundtrip_amended [4, 3] 3 (by left; rfl) (by decide)
      (by decide)).2.2.2 (by decide) (by decide)⟩

/-- Setting a level in range stores the image at that level. -/
theorem PyrImgs.get_set_self (p : PyrImgs) (l : Int) (a : Img)
    (hl : p.lowest ≤ l) (hh : l ≤ p.highest) : (p.set l a).get l = a := by
  unfold PyrImgs.get PyrImgs.set
  have hlen : (l - p.lowest).toNat < p.levels.length := by
    unfold PyrImgs.highest at hh
    omega
  simp only
  rw [List.getD_eq_getElem?_getD, List.getElem?_set_self (by simpa using hlen)]
  simp

/-- Setting one level leaves every other in-range level unchanged. -/
theorem PyrImgs.get_set_ne (p : PyrImgs) (l l' : Int) (a : Img)
    (hne : l ≠ l') (hl : p.lowest ≤ l) (hl' : p.lowest ≤ l') :
    (p.set l a).get l' = p.get l' := by
  unfold PyrImgs.get PyrImgs.set
  simp only
  rw [List.getD_eq_getElem?_getD,
    List.getElem?_set_ne (by omega : (l - p.lowest).toNat ≠ (l' - p.lowest).toNat),
    ← List.getD_eq_getElem?_getD]

/-- Setting a level changes neither bound of the pyramid. -/
theorem PyrImgs.set_lowest (p : PyrImgs) (l : Int) (a : Img) :
    (p.set l a).lowest = p.lowest := rfl

/-- Setting a level keeps the number of levels. -/
theorem PyrImgs.set_length (p : PyrImgs) (l : Int) (a : Img) :
    (p.set l a).levels.length = p.levels.length := by
  unfold PyrImgs.set
  simp

/-- Setting a level keeps the highest level. -/
theorem PyrImgs.set_highest (p : PyrImgs) (l : Int) (a : Img) :
    (p.set l a).highest = p.highest := by
  unfold PyrImgs.highest
  rw [PyrImgs.set_lowest, PyrImgs.set_length]

/-- `createLevel` of a level already in range changes nothing. -/
theorem PyrImgs.createLevel_of_mem (p : PyrImgs) (l : Int)
    (hl : p.lowest ≤ l) (hh : l ≤ p.highest) : p.createLevel l = p := by
  unfold PyrImgs.createLevel
  rw [if_neg (by omega), if_neg (by omega)]

/-- The row lengths of a zero image of the same shape. -/
theorem rowLens_zeroLike (a : Img) : rowLens (zeroLike a) = rowLens a := by
  unfold rowLens zeroLike
  rw [List.map_map]
  apply List.map_congr_left
  intro r _
  simp

/-- A zero image is determined by the row lengths of its template. -/
theorem zeroLike_eq_of_rowLens (a b : Img) (h : rowLens a = rowLens b) :
    zeroLike a = zeroLike b := by
  unfold zeroLike
  have ha : a.map (fun r => List.replicate r.length (0 : Int)) =
      (rowLens a).map (fun n => List.replicate n (0 : Int)) := by
    unfold rowLens
    rw [List.map_map]
    rfl
  have hb : b.map (fun r => List.replicate r.length (0 : Int)) =
      (rowLens b).map (fun n => List.replicate n (0 : Int)) := by
    unfold rowLens
    rw [List.map_map]
    rfl
  rw [ha, hb, h]

/-- Row lengths of a pointwise difference of same-shaped images. -/
theorem rowLens_imSub (a b : Img) (h : rowLens a = rowLens b) :
    rowLens (imSub a b) = rowLens b := by
  induction a generalizing b with
  | nil =>
    cases b with
    | nil => rfl
    | cons rb bs => simp [rowLens] at h
  | cons ra as ih =>
    cases b with
    | nil => simp [rowLens] at h
    | cons rb bs =>
      simp only [rowLens, List.map_cons, List.cons.injEq] at h
      simp only [imSub, List.zipWith_cons_cons, rowLens, List.map_cons,
        List.cons.injEq]
      constructor
      · rw [List.length_zipWith]
        omega
      · exact ih bs h.2

/-- Pointwise cancellation `x - (x - y) = y` on equal-length sample rows. -/
theorem zipSub_cancel :
    ∀ (ra rb : List Int), ra.length = rb.length →
      List.zipWith (· - ·) ra (List.zipWith (· - ·) ra rb) = rb
  | [], [], _ => rfl
  | [], _ :: _, h => by simp at h
  | _ :: _, [], h => by simp at h
  | x :: xs, y :: ys, h => by
    simp only [List.length_cons, Nat.succ_inj] at h
    simp only [List.zipWith_cons_cons, List.cons.injEq]
    exact ⟨by omega, zipSub_cancel xs ys h⟩

/-- Pointwise cancellation `a - (a - b) = b` for same-shaped images. -/
theorem imSub_imSub_cancel (a b : Img) (h : rowLens a = rowLens b) :
    imSub a (imSub a b) = b := by
  induction a generalizing b with
  | nil =>
    cases b with
    | nil => rfl
    | cons rb bs => simp [rowLens] at h
  | cons ra as ih =>
    cases b with
    | nil => simp [rowLens] at h
    | cons rb bs =>
      simp only [rowLens, List.map_cons, List.cons.injEq] at h
      simp only [imSub, List.zipWith_cons_cons, List.cons.injEq]
      exact ⟨zipSub_cancel ra rb h.1, ih bs h.2⟩

/-- Restarting the cascade from its first step shifts its index by one. -/
theorem lapCascade_shift (conv : Img → Img) (x : Img) :
    ∀ m, lapCascade conv (subsample2 (conv x)) m = lapCascade conv x (m + 1)
  | 0 => rfl
  | m + 1 => by
    show subsample2 (conv (lapCascade conv (subsample2 (conv x)) m)) = _
    rw [lapCascade_shift conv x m]
    rfl

/-- The index shift stated through the cascade's own first step. -/
theorem lapCascade_shift' (conv : Img → Img) (x : Img) (m : Nat) :
    lapCascade conv (lapCascade conv x 1) m = lapCascade conv x (m + 1) := by
  have h1 : lapCascade conv x 1 = subsample2 (conv x) := rfl
  rw [h1, lapCascade_shift]

/-- Behaviour of the reduceLaplacian loop: processed levels hold the
difference between the expansion of the next coarser level and the
level's previous content (the cascade value), the final level holds the
last cascade value, and levels below the processed range, the bounds and
the level count are untouched. -/
theorem reduceLapLoop_spec (conv : Img → Img) (expandI : Img → Img → Img) :
    ∀ (n : Nat) (p : PyrImgs) (k : Int) (x : Img),
      p.lowest ≤ k → k + n ≤ p.highest → p.get k = x →
      (reduceLapLoop conv expandI p k n).lowest = p.lowest ∧
      (reduceLapLoop conv expandI p k n).levels.length =
        p.levels.length ∧
      (∀ j : Int, p.lowest ≤ j → j < k →
        (reduceLapLoop conv expandI p k n).get j = p.get j) ∧
      (∀ m : Nat, m < n →
        (reduceLapLoop conv expandI p k n).get (k + m) =
          imSub
            (expandI (lapCascade conv x (m + 1))
              (conv (lapCascade conv x m)))
            (lapCascade conv x m)) ∧
      (reduceLapLoop conv expandI p k n).get (k + n) =
        lapCascade conv x n := by
  intro n
  induction n with
  | zero =>
    intro p k x hl hh hx
    refine ⟨rfl, rfl, fun j _ _ => rfl,
      fun m hm => absurd hm (by omega), ?_⟩
    simpa using hx
  | succ nn ih =>
    intro p k x hl hh hx
    have hkh : k + 1 ≤ p.highest := by
      have : ((nn : Int) + 1) = ((nn + 1 : Nat) : Int) := by push_cast; ring
      omega
    set p1 := p.set (k + 1) (subsample2 (conv (p.get k))) with hp1
    set p2 := p1.set k
      (imSub (expandI (p1.get (k + 1)) (conv (p.get k))) (p1.get k))
      with hp2
    have hstep : reduceLapLoop conv expandI p k (nn + 1) =
        reduceLapLoop conv expandI p2 (k + 1) nn := rfl
    have hp1low : p1.lowest = p.lowest := rfl
    have hp1high : p1.highest = p.highest := PyrImgs.set_highest p _ _
    have hget1 : p1.get (k + 1) = lapCascade conv x 1 := by
      rw [hp1, PyrImgs.get_set_self p (k + 1) _ (by omega) hkh, hx]
      rfl
    have hget1k : p1.get k = x := by
      rw [hp1, PyrImgs.get_set_ne p (k + 1) k _ (by omega) (by omega) hl, hx]
    have hp2low : p2.lowest = p.lowest := rfl
    have hp2high : p2.highest = p.highest := by
      rw [hp2, PyrImgs.set_highest, hp1high]
    have hget2k : p2.get k =
        imSub (expandI (lapCascade conv x 1) (conv x)) x := by
      rw [hp2, PyrImgs.get_set_self p1 k _ (by rw [hp1low]; exact hl)
        (by rw [hp1high]; omega), hget1, hget1k, hx]
    have hget2k1 : p2.get (k + 1) = lapCascade conv x 1 := by
      rw [hp2, PyrImgs.get_set_ne p1 k (k + 1) _ (by omega)
        (by rw [hp1low]; exact hl) (by rw [hp1low]; omega), hget1]
    have hh2 : (k + 1) + nn ≤ p2.highest := by
      rw [hp2high]
      have : ((nn : Int) + 1) = ((nn + 1 : Nat) : Int) := by push_cast; ring
      omega
    have IH := ih p2 (k + 1) (lapCascade conv x 1)
      (by rw [hp2low]; omega) hh2 hget2k1
    rw [hstep]
    refine ⟨IH.1.trans hp2low, IH.2.1.trans (by rw [hp2]; rw [PyrImgs.set_length, hp1, PyrImgs.set_length]), ?_, ?_, ?_⟩
    · intro j hjl hjk
      rw [IH.2.2.1 j (by rw [hp2low]; exact hjl) (by omega)]
      rw [hp2, PyrImgs.get_set_ne p1 k j _ (by omega)
        (by rw [hp1low]; exact hl) (by rw [hp1low]; exact hjl)]
      rw [hp1, PyrImgs.get_set_ne p (k + 1) j _ (by omega) (by omega) hjl]
    · intro m hm
      cases m with
      | zero =>
        have hres : (reduceLapLoop conv expandI p2 (k + 1) nn).get k =
            p2.get k :=
          IH.2.2.1 k (by rw [hp2low]; exact hl) (by omega)
        have hidx : k + ((0 : Nat) : Int) = k := by simp
        rw [hidx, hres, hget2k]
        rfl
      | succ mm =>
        have hidx : k + ((mm + 1 : Nat) : Int) = (k + 1) + (mm : Int) := by
          push_cast
          ring
        rw [hidx, IH.2.2.2.1 mm (by omega)]
        simp only [lapCascade_shift']
    · have hidx : k + ((nn + 1 : Nat) : Int) = (k + 1) + (nn : Int) := by
        push_cast
        ring
      rw [hidx, IH.2.2.2.2, lapCascade_shift']

/-- The reconstruction cascade of `expandLaplacian` read off a pyramid:
step 0 is the coarsest level, and each further step subtracts the stored
level from the expansion of the previous reconstruction (the expansion
buffer being a zero image shaped like the stored level). -/
def expandRecon (expandI : Img → Img → Img) (q : PyrImgs) (src : Int) :
    Nat → Img
  | 0 => q.get src
  | m + 1 =>
    imSub
      (expandI (expandRecon expandI q src m)
        (zeroLike (q.get (src - ((m : Int) + 1)))))
      (q.get (src - ((m : Int) + 1)))

/-- Behaviour of the expandLaplacian loop: given the stored levels L and
the reconstruction recurrence R, each processed level k-m ends up holding
R m, and levels at or above k are untouched. -/
theorem expandLapLoop_spec (expandI : Img → Img → Img) :
    ∀ (n : Nat) (p : PyrImgs) (k : Int) (L R : Nat → Img),
      p.lowest ≤ k - n → k ≤ p.highest →
      (∀ m : Nat, m ≤ n → p.get (k - m) = L m) →
      R 0 = L 0 →
      (∀ m : Nat,
        R (m + 1) =
          imSub (expandI (R m) (zeroLike (L (m + 1)))) (L (m + 1))) →
      (∀ j : Int, k ≤ j → (expandLapLoop expandI p k n).get j = p.get j) ∧
      (∀ m : Nat, m ≤ n →
        (expandLapLoop expandI p k n).get (k - m) = R m) := by
  intro n
  induction n with
  | zero =>
    intro p k L R hlow hhigh hL hR0 hR
    refine ⟨fun j _ => rfl, ?_⟩
    intro m hm
    have hm0 : m = 0 := by omega
    subst hm0
    have := hL 0 (le_refl 0)
    simpa [hR0] using this
  | succ nn ih =>
    intro p k L R hlow hhigh hL hR0 hR
    have hcast : ((nn + 1 : Nat) : Int) = (nn : Int) + 1 := by push_cast; ring
    have hlk1 : p.lowest ≤ k - 1 := by omega
    set p1 := p.set (k - 1)
      (imSub (expandI (p.get k) (zeroLike (p.get (k - 1))))
        (p.get (k - 1))) with hp1
    have hstep : expandLapLoop expandI p k (nn + 1) =
        expandLapLoop expandI p1 (k - 1) nn := rfl
    have hLk : p.get k = L 0 := by
      have := hL 0 (by omega)
      simpa using this
    have hLk1 : p.get (k - 1) = L 1 := by
      have := hL 1 (by omega)
      simpa using this
    have hp1low : p1.lowest = p.lowest := rfl
    have hp1high : p1.highest = p.highest := PyrImgs.set_highest p _ _
    have hget1 : p1.get (k - 1) = R 1 := by
      rw [hp1, PyrImgs.get_set_self p (k - 1) _ hlk1 (by omega), hLk, hLk1,
        hR 0, hR0]
    have hIHL : ∀ m : Nat, m ≤ nn →
        p1.get ((k - 1) - m) = (fun m => if m = 0 then R 1 else L (m + 1)) m := by
      intro m hm
      cases m with
      | zero => simpa using hget1
      | succ mm =>
        simp only [Nat.succ_ne_zero, if_neg, reduceIte]
        have hidx : (k - 1) - ((mm + 1 : Nat) : Int) =
            k - ((mm + 2 : Nat) : Int) := by
          push_cast
          ring
        rw [hp1, PyrImgs.get_set_ne p (k - 1)
          ((k - 1) - ((mm + 1 : Nat) : Int)) _ (by push_cast; omega) hlk1
          (by push_cast at hlow ⊢; omega), hidx, hL (mm + 2) (by omega)]
    have hIHR : ∀ m : Nat,
        (fun m => R (m + 1)) (m + 1) =
          imSub (expandI ((fun m => R (m + 1)) m)
            (zeroLike ((fun m => if m = 0 then R 1 else L (m + 1)) (m + 1))))
            ((fun m => if m = 0 then R 1 else L (m + 1)) (m + 1)) := by
      intro m
      simp only [Nat.succ_ne_zero, if_neg, reduceIte]
      exact hR (m + 1)
    have IH := ih p1 (k - 1) (fun m => if m = 0 then R 1 else L (m + 1))
      (fun m => R (m + 1))
      (by rw [hp1low]; push_cast at hcast ⊢; omega)
      (by rw [hp1high]; omega)
      hIHL (by simp) hIHR
    rw [hstep]
    constructor
    · intro j hj
      rw [IH.1 j (by omega)]
      rw [hp1, PyrImgs.get_set_ne p (k - 1) j _ (by omega) hlk1 (by omega)]
    · intro m hm
      cases m with
      | zero =>
        have hidx : k - ((0 : Nat) : Int) = k := by simp
        rw [hidx, IH.1 k (by omega)]
        rw [hp1, PyrImgs.get_set_ne p (k - 1) k _ (by omega) hlk1 (by omega),
          hLk, hR0]
      | succ mm =>
        have hidx : k - ((mm + 1 : Nat) : Int) = (k - 1) - (mm : Int) := by
          push_cast
          ring
        rw [hidx]
        exact IH.2 mm (by omega)

/-- `reduceLaplacian` under valid level arguments: no error is raised, the
bounds are kept, each processed level src..dest-1 ends up holding the
difference between the expansion of the next coarser level and that
level's content at processing time (the smoothing cascade value), and the
destination level holds the final cascade value. -/
theorem reduceLaplacian_spec (conv : Img → Img) (expandI : Img → Img → Img)
    (p : PyrImgs) (src dest : Int) (hsd : src ≤ dest)
    (hl : p.lowest ≤ src) (hh : dest ≤ p.highest) :
    (p.reduceLaplacian conv expandI src dest).2 = none ∧
    (p.reduceLaplacian conv expandI src dest).1.lowest = p.lowest ∧
    (p.reduceLaplacian conv expandI src dest).1.highest = p.highest ∧
    (∀ m : Nat, m < (dest - src).toNat →
      (p.reduceLaplacian conv expandI src dest).1.get (src + m) =
        imSub
          (expandI (lapCascade conv (p.get src) (m + 1))
            (conv (lapCascade conv (p.get src) m)))
          (lapCascade conv (p.get src) m)) ∧
    (p.reduceLaplacian conv expandI src dest).1.get dest =
      lapCascade conv (p.get src) (dest - src).toNat := by
  have hguard : p.reduceLaplacian conv expandI src dest =
      (reduceLapLoop conv expandI p src (dest - src).toNat, none) := by
    unfold PyrImgs.reduceLaplacian
    rw [if_neg (by omega), if_neg (by omega),
      PyrImgs.createLevel_of_mem p dest (by omega) hh]
  have spec := reduceLapLoop_spec conv expandI (dest - src).toNat p src
    (p.get src) hl (by omega) rfl
  rw [hguard]
  have hhigh : (reduceLapLoop conv expandI p src
      (dest - src).toNat).highest = p.highest := by
    unfold PyrImgs.highest
    rw [spec.1, spec.2.1]
  refine ⟨rfl, spec.1, hhigh, fun m hm => spec.2.2.2.1 m hm, ?_⟩
  have hidx : src + ((dest - src).toNat : Int) = dest := by omega
  have hlast := spec.2.2.2.2
  rw [hidx] at hlast
  exact hlast

/-- `expandLaplacian` under valid level arguments: no error is raised and
each processed level src-m holds the m-th step of the reconstruction
recurrence, the mirror-image subtraction of the stored level from the
expansion of the previous step. -/
theorem expandLaplacian_spec (expandI : Img → Img → Img)
    (q : PyrImgs) (src dest : Int) (hde : dest ≤ src)
    (hl : q.lowest ≤ dest) (hh : src ≤ q.highest) :
    (q.expandLaplacian expandI src dest).2 = none ∧
    (∀ m : Nat, m ≤ (src - dest).toNat →
      (q.expandLaplacian expandI src dest).1.get (src - m) =
        expandRecon expandI q src m) := by
  have hguard : q.expandLaplacian expandI src dest =
      (expandLapLoop expandI q src (src - dest).toNat, none) := by
    unfold PyrImgs.expandLaplacian
    rw [if_neg (by omega), if_neg (by omega),
      PyrImgs.createLevel_of_mem q dest hl (by omega)]
  have spec := expandLapLoop_spec expandI (src - dest).toNat q src
    (fun m => q.get (src - m)) (expandRecon expandI q src)
    (by omega) (by omega) (fun m _ => rfl) (by simp [expandRecon])
    (fun m => rfl)
  rw [hguard]
  exact ⟨rfl, fun m hm => spec.2 m hm⟩

/-- C7 amended: reduceLaplacian stores, at each processed level k in
srcLevel..destLevel-1, the difference between the same-resolution
reconstruction (the expansion of the next coarser level) and that level's
content — reconstruction minus original, the negative of the claim's
orientation; expandLaplacian reconstructs each level srcLevel-1 down to
destLevel by the mirror-image subtraction of the stored Laplacian image
from the expanded coarser level (not by addition); composing the two
recovers every intermediate cascade image exactly, provided the external
convolution and expansion collaborators are shape-preserving and the
in-place expansion depends on its destination buffer only through that
buffer's shape. -/
theorem c7_laplacian_amended (conv : Img → Img) (expandI : Img → Img → Img) :
    (∀ (p : PyrImgs) (src dest : Int), src ≤ dest → p.lowest ≤ src →
      dest ≤ p.highest →
      (p.reduceLaplacian conv expandI src dest).2 = none ∧
      (∀ m : Nat, m < (dest - src).toNat →
        (p.reduceLaplacian conv expandI src dest).1.get (src + m) =
          imSub
            (expandI (lapCascade conv (p.get src) (m + 1))
              (conv (lapCascade conv (p.get src) m)))
            (lapCascade conv (p.get src) m)) ∧
      (p.reduceLaplacian conv expandI src dest).1.get dest =
        lapCascade conv (p.get src) (dest - src).toNat) ∧
    (∀ (q : PyrImgs) (src dest : Int), dest ≤ src → q.lowest ≤ dest →
      src ≤ q.highest →
      (q.expandLaplacian expandI src dest).2 = none ∧
      (∀ m : Nat, m ≤ (src - dest).toNat →
        (q.expandLaplacian expandI src dest).1.get (src - m) =
          expandRecon expandI q src m)) ∧
    ((∀ y, rowLens (conv y) = rowLens y) →
      (∀ s t, rowLens (expandI s t) = rowLens t) →
      (∀ s t t', rowLens t = rowLens t' → expandI s t = expandI s t') →
      ∀ (p : PyrImgs) (src dest : Int), src ≤ dest → p.lowest ≤ src →
        dest ≤ p.highest → ∀ m : Nat, m ≤ (dest - src).toNat →
        ((p.reduceLaplacian conv expandI src dest).1.expandLaplacian
            expandI dest src).1.get (dest - m) =
          lapCascade conv (p.get src) ((dest - src).toNat - m)) := by
  refine ⟨?_, ?_, ?_⟩
  · intro p src dest hsd hl hh
    have A := reduceLaplacian_spec conv expandI p src dest hsd hl hh
    exact ⟨A.1, A.2.2.2.1, A.2.2.2.2⟩
  · intro q src dest hde hl hh
    exact expandLaplacian_spec expandI q src dest hde hl hh
  · intro hconv hexpS hexpD p src dest hsd hl hh
    have A := reduceLaplacian_spec conv expandI p src dest hsd hl hh
    set n := (dest - src).toNat with hn
    set P1 := (p.reduceLaplacian conv expandI src dest).1 with hP1
    set x := p.get src with hxdef
    have B := expandLaplacian_spec expandI P1 dest src hsd
      (by rw [A.2.1]; omega) (by rw [A.2.2.1]; omega)
    have hstored : ∀ j : Nat, 1 ≤ j → j ≤ n →
        P1.get (dest - j) =
          imSub (expandI (lapCascade conv x (n - j + 1))
            (conv (lapCascade conv x (n - j))))
            (lapCascade conv x (n - j)) := by
      intro j h1 hj
      have hidx : dest - (j : Int) = src + ((n - j : Nat) : Int) := by omega
      rw [hidx]
      exact A.2.2.2.1 (n - j) (by omega)
    have hrec : ∀ m : Nat, m ≤ n →
        expandRecon expandI P1 dest m = lapCascade conv x (n - m) := by
      intro m
      induction m with
      | zero =>
        intro _
        show P1.get dest = lapCascade conv x (n - 0)
        rw [Nat.sub_zero]
        exact A.2.2.2.2
      | succ mm ihm =>
        intro hm
        have hmm := ihm (by omega)
        show imSub (expandI (expandRecon expandI P1 dest mm)
            (zeroLike (P1.get (dest - ((mm + 1 : Nat) : Int)))))
            (P1.get (dest - ((mm + 1 : Nat) : Int))) = _
        have hst := hstored (mm + 1) (by omega) hm
        rw [show n - (mm + 1) + 1 = n - mm from by omega] at hst
        set c := lapCascade conv x (n - (mm + 1)) with hc
        rw [hst, hmm]
        set iE := expandI (lapCascade conv x (n - mm)) (conv c) with hiE
        have hiEshape : rowLens iE = rowLens c := by
          rw [hiE, hexpS, hconv]
        have hstshape : rowLens (imSub iE c) = rowLens c :=
          rowLens_imSub iE c hiEshape
        have hkey : expandI (lapCascade conv x (n - mm))
            (zeroLike (imSub iE c)) = iE := by
          rw [hiE]
          apply hexpD
          rw [rowLens_zeroLike, hstshape, hconv]
        rw [hkey]
        exact imSub_imSub_cancel iE c hiEshape
    intro m hm
    rw [B.2 m (by omega)]
    exact hrec m hm

/-- C7 counterexample: with the convolution collaborator instantiated as
the identity and the in-place expansion instantiated as zero fill,
reduceLaplacian on a two-level pyramid holding the 1x1 image [[2]] stores
[[-2]] at level 0 (reconstruction minus original), whereas the claim's
"difference between the level's original content and the same-resolution
reconstruction" is imSub [[2]] (zeroLike [[2]]) = [[2]]. -/
theorem c7_laplacian_counterexample :
    (PyrImgs.reduceLaplacian id (fun _ t => zeroLike t)
      ⟨[[[2]], [[0]]], 0⟩ 0 1).1.get 0 = [[-2]] ∧
    imSub ([[2]] : Img)
      ((fun (_ : Img) (t : Img) => zeroLike t) ([[2]] : Img)
        (id ([[2]] : Img))) = [[2]] ∧
    ([[-2]] : Img) ≠ [[2]] := by decide

/-- C7 witness: the amended theorem at the same concrete instance — the
run succeeds, the coarse level holds the cascade value, and the
expandLaplacian round trip restores level 0 exactly. -/
theorem c7_laplacian_witness :
    (PyrImgs.reduceLaplacian id (fun _ t => zeroLike t)
      ⟨[[[2]], [[0]]], 0⟩ 0 1).2 = none ∧
    (PyrImgs.reduceLaplacian id (fun _ t => zeroLike t)
      ⟨[[[2]], [[0]]], 0⟩ 0 1).1.get 1 =
      lapCascade id (PyrImgs.get ⟨[[[2]], [[0]]], 0⟩ 0) 1 ∧
    ((PyrImgs.reduceLaplacian id (fun _ t => zeroLike t)
      ⟨[[[2]], [[0]]], 0⟩ 0 1).1.expandLaplacian
        (fun _ t => zeroLike t) 1 0).1.get 0 =
      lapCascade id (PyrImgs.get ⟨[[[2]], [[0]]], 0⟩ 0) 0 :=
  ⟨((c7_laplacian_amended id (fun _ t => zeroLike t)).1
      ⟨[[[2]], [[0]]], 0⟩ 0 1 (by decide) (by decide) (by decide)).1,
   ((c7_laplacian_amended id (fun _ t => zeroLike t)).1
      ⟨[[[2]], [[0]]], 0⟩ 0 1 (by decide) (by decide) (by decide)).2.2,
   (c7_laplacian_amended id (fun _ t => zeroLike t)).2.2
     (fun _ => rfl) (fun _ t => rowLens_zeroLike t)
     (fun _ t t' h => zeroLike_eq_of_rowLens t t' h)
     ⟨[[[2]], [[0]]], 0⟩ 0 1 (by decide) (by decide) (by decide) 1
     (by decide)⟩
